import Mathlib

/-!
# Verification of the graph engine (`src/engine/python/graph.py`)

Shallow embedding of the vehicle-telemetry platform's geospatial shortest-path
engine.  Python floats are modelled by `ℚ` in the algorithmic code (exact
arithmetic; the float sentinel `float('inf')` becomes `⊤ : WithTop ℚ`) and by
`ℝ` in the trigonometric geometry code.  Python `dict`s are modelled by
association lists: lookup returns the first matching key (`Option`, with
`none` standing for a `KeyError`), and assignment updates the first matching
key or appends a fresh one (Python dicts keep insertion order).  `heapq` is
modelled by a list kept sorted under the lexicographic order on
`(distance, vertex)` pairs: `heappop` returns the minimum of the heap's
multiset, which is the head of the sorted list, and `heappush` is ordered
insertion.  Fallible code returns `Except String`; loops the Python source
runs without a structural termination argument take a fuel parameter whose
exhaustion is an `.error`, and the chosen fuel is proved sufficient where a
claim needs the loop's result.
-/

namespace TelemetryGraph

/-- Weight/distance values during a solve: a rational or the `float('inf')`
sentinel (`⊤`).  `⊤ + w = ⊤` and `¬(⊤ < ⊤)` match IEEE infinity for the
non-negative arithmetic the engine performs. -/
abbrev Wt : Type := WithTop ℚ

/-! ## Python dict as association list -/

/-- `d[k]` on a Python dict: first matching entry, `none` = `KeyError`. -/
def alookup {α : Type} (l : List (Nat × α)) (k : Nat) : Option α :=
  match l with
  | [] => none
  | (k', v) :: rest => if k' = k then some v else alookup rest k

/-- `d[k] = v` on a Python dict: overwrite the first matching entry, or
append the new key at the end (insertion order). -/
def aset {α : Type} (l : List (Nat × α)) (k : Nat) (v : α) : List (Nat × α) :=
  match l with
  | [] => [(k, v)]
  | (k', v') :: rest => if k' = k then (k, v) :: rest else (k', v') :: aset rest k v

@[simp] theorem alookup_nil {α : Type} (k : Nat) : alookup ([] : List (Nat × α)) k = none := rfl

@[simp] theorem alookup_cons {α : Type} (k' : Nat) (v : α) (rest : List (Nat × α)) (k : Nat) :
    alookup ((k', v) :: rest) k = if k' = k then some v else alookup rest k := rfl

@[simp] theorem aset_nil {α : Type} (k : Nat) (v : α) :
    aset ([] : List (Nat × α)) k v = [(k, v)] := rfl

theorem alookup_aset_self {α : Type} (l : List (Nat × α)) (k : Nat) (v : α) :
    alookup (aset l k v) k = some v := by
  induction l with
  | nil => simp [aset]
  | cons hd tl ih =>
    obtain ⟨k', v'⟩ := hd
    by_cases h : k' = k <;> simp [aset, alookup, h, ih]

theorem alookup_aset_ne {α : Type} (l : List (Nat × α)) (k k' : Nat) (v : α) (h : k ≠ k') :
    alookup (aset l k v) k' = alookup l k' := by
  induction l with
  | nil => simp [aset, alookup, h]
  | cons hd tl ih =>
    obtain ⟨k₀, v₀⟩ := hd
    by_cases h₀ : k₀ = k
    · subst h₀
      simp [aset, alookup, h]
    · simp [aset, alookup, h₀, ih]

/-- `aset` preserves which keys are present whenever the key being written
already has an entry. -/
theorem alookup_aset_isSome {α : Type} (l : List (Nat × α)) (k k' : Nat) (v : α)
    (hk : (alookup l k).isSome) :
    (alookup (aset l k v) k').isSome = (alookup l k').isSome := by
  by_cases h : k = k'
  · subst h
    simp [alookup_aset_self, hk]
  · rw [alookup_aset_ne l k k' v h]

theorem aset_length_le {α : Type} (l : List (Nat × α)) (k : Nat) (v : α) :
    l.length ≤ (aset l k v).length := by
  induction l with
  | nil => simp [aset]
  | cons hd tl ih =>
    obtain ⟨k', v'⟩ := hd
    by_cases h : k' = k <;> simp [aset, h]
    omega

/-! ## The graph data structure (`class Graph`) -/

/-- `Graph.__init__`: vertex count `V`, adjacency dict `adj`
(`defaultdict(list)`, node ↦ list of `(neighbor, weight)` pairs), and the
flat edge list `edges`.  Weights are a type parameter so the same structure
serves the rational algorithmic model and the real-valued geometric builder. -/
structure Graph (W : Type) where
  V : Nat
  adj : List (Nat × List (Nat × W))
  edges : List (Nat × Nat × W)
deriving Repr

namespace Graph

/-- Reading `self.adj[u]`: a `defaultdict(list)` yields `[]` for a missing
key.  (The defaultdict also inserts the fresh key on read; no claim observes
the adjacency dict after such a read, so the model keeps the read pure.) -/
def adjGet {W : Type} (g : Graph W) (u : Nat) : List (Nat × W) :=
  (alookup g.adj u).getD []

/-- `Graph.add_vertex`: grow `V` to `v+1` when `v ≥ V`; create an empty
adjacency entry when `v` has none. -/
def add_vertex {W : Type} (g : Graph W) (v : Nat) : Graph W :=
  let V' := if g.V ≤ v then v + 1 else g.V
  let adj' := if (alookup g.adj v).isSome then g.adj else g.adj ++ [(v, [])]
  { g with V := V', adj := adj' }

/-- `Graph.add_edge`: ensure both endpoints exist, append `(v, w)` to `u`'s
adjacency list, append `(u, v, w)` to the edge list. -/
def add_edge {W : Type} (g : Graph W) (u v : Nat) (w : W) : Graph W :=
  let g₁ := (g.add_vertex u).add_vertex v
  { g₁ with
    adj := aset g₁.adj u (g₁.adjGet u ++ [(v, w)]),
    edges := g₁.edges ++ [(u, v, w)] }

end Graph

/-! ## Priority queue (`heapq` on `(distance, vertex)` pairs) -/

/-- Lexicographic order on heap entries, matching Python tuple comparison. -/
def pqLe (a b : Wt × Nat) : Prop := a.1 < b.1 ∨ (a.1 = b.1 ∧ a.2 ≤ b.2)

instance : DecidableRel pqLe := fun a b => by unfold pqLe; infer_instance

instance : IsTotal (Wt × Nat) pqLe where
  total a b := by
    rcases lt_trichotomy a.1 b.1 with h | h | h
    · exact Or.inl (Or.inl h)
    · rcases Nat.le_total a.2 b.2 with h2 | h2
      · exact Or.inl (Or.inr ⟨h, h2⟩)
      · exact Or.inr (Or.inr ⟨h.symm, h2⟩)
    · exact Or.inr (Or.inl h)

instance : IsTrans (Wt × Nat) pqLe where
  trans a b c hab hbc := by
    rcases hab with h | ⟨he, hn⟩
    · rcases hbc with h' | ⟨he', _⟩
      · exact Or.inl (h.trans h')
      · exact Or.inl (he' ▸ h)
    · rcases hbc with h' | ⟨he', hn'⟩
      · exact Or.inl (he ▸ h')
      · exact Or.inr ⟨he.trans he', hn.trans hn'⟩

/-- `heapq.heappush`: the heap's multiset gains the entry; the model keeps the
list sorted so that the head is the multiset's minimum, as `heappop` returns. -/
def pqPush (e : Wt × Nat) (pq : List (Wt × Nat)) : List (Wt × Nat) :=
  List.orderedInsert pqLe e pq

/-! ## Dijkstra (`Graph.dijkstra`) and single-pair solve (`Graph.get_shortest_path`) -/

/-- `dist = {i: float('inf') for i in range(self.V)}` followed by
`dist[source] = 0`. -/
def distInit (V source : Nat) : List (Nat × Wt) :=
  aset ((List.range V).map fun i => (i, (⊤ : Wt))) source ((0 : ℚ) : Wt)

/-- `parent = {i: None for i in range(self.V)}`. -/
def parentInit (V : Nat) : List (Nat × Option Nat) :=
  (List.range V).map fun i => (i, (none : Option Nat))

/-- The relaxation loop body of `Graph.dijkstra` (lines 68–71): for each
neighbor `(v, w)` of `u`, if `dist[u] + w < dist[v]` then update `dist[v]`
and push `(dist[v], v)`.  Python looks `dist[u]` up afresh for every
neighbor; a missing key is a `KeyError`. -/
def relaxNbrs (u : Nat) (dist : List (Nat × Wt)) (pq : List (Wt × Nat)) :
    List (Nat × ℚ) → Except String (List (Nat × Wt) × List (Wt × Nat))
  | [] => .ok (dist, pq)
  | (v, w) :: rest =>
    match alookup dist u, alookup dist v with
    | some du, some dv =>
      if du + (w : Wt) < dv then
        relaxNbrs u (aset dist v (du + (w : Wt))) (pqPush (du + (w : Wt), v) pq) rest
      else relaxNbrs u dist pq rest
    | _, _ => .error "KeyError: dist"

/-- Relaxation loop body of `Graph.get_shortest_path` (lines 104–108): as
`relaxNbrs` but additionally records `parent[v] = u` on every update. -/
def relaxNbrsP (u : Nat) (dist : List (Nat × Wt)) (parent : List (Nat × Option Nat))
    (pq : List (Wt × Nat)) :
    List (Nat × ℚ) →
      Except String (List (Nat × Wt) × List (Nat × Option Nat) × List (Wt × Nat))
  | [] => .ok (dist, parent, pq)
  | (v, w) :: rest =>
    match alookup dist u, alookup dist v with
    | some du, some dv =>
      if du + (w : Wt) < dv then
        relaxNbrsP u (aset dist v (du + (w : Wt))) (aset parent v (some u))
          (pqPush (du + (w : Wt), v) pq) rest
      else relaxNbrsP u dist parent pq rest
    | _, _ => .error "KeyError: dist"

/-- The `while pq:` loop of `Graph.dijkstra` (lines 59–71).  Fuel models the
absent structural termination argument; exhaustion is an error, and the fuel
chosen by the wrapper is proved sufficient below. -/
def dijkstraLoop (g : Graph ℚ) :
    Nat → List (Wt × Nat) → List (Nat × Wt) → List Nat → Except String (List (Nat × Wt))
  | 0, _, _, _ => .error "nontermination"
  | fuel + 1, pq, dist, visited =>
    match pq with
    | [] => .ok dist
    | (_, u) :: rest =>
      if u ∈ visited then dijkstraLoop g fuel rest dist visited
      else
        match relaxNbrs u dist rest (g.adjGet u) with
        | .ok (dist', pq') => dijkstraLoop g fuel pq' dist' (u :: visited)
        | .error e => .error e

/-- The `while pq:` loop of `Graph.get_shortest_path` (lines 93–108): as
`dijkstraLoop` but breaking as soon as `target` is popped (before the
stale-entry check) and threading the parent map. -/
def spLoop (g : Graph ℚ) (target : Nat) :
    Nat → List (Wt × Nat) → List (Nat × Wt) → List (Nat × Option Nat) → List Nat →
      Except String (List (Nat × Wt) × List (Nat × Option Nat))
  | 0, _, _, _, _ => .error "nontermination"
  | fuel + 1, pq, dist, parent, visited =>
    match pq with
    | [] => .ok (dist, parent)
    | (_, u) :: rest =>
      if u = target then .ok (dist, parent)
      else if u ∈ visited then spLoop g target fuel rest dist parent visited
      else
        match relaxNbrsP u dist parent rest (g.adjGet u) with
        | .ok (dist', parent', pq') => spLoop g target fuel pq' dist' parent' (u :: visited)
        | .error e => .error e

/-- Total length of the adjacency lists whose key is not yet visited; used
for the loop measure and the fuel bound. -/
def remAdj (g : Graph ℚ) (visited : List Nat) : Nat :=
  ((g.adj.filter fun p => decide (p.1 ∉ visited)).map fun p => p.2.length).sum

/-- Fuel sufficient for the whole solve: one pop per initial queue entry plus
one per possible push (each visited node pushes at most its adjacency-list
length, and a node is processed at most once). -/
def loopFuel (g : Graph ℚ) : Nat := remAdj g [] + 2

/-- `Graph.dijkstra` (lines 39–73): returns the final `dist` dict. -/
def Graph.dijkstra (g : Graph ℚ) (source : Nat) : Except String (List (Nat × Wt)) :=
  dijkstraLoop g (loopFuel g) [(((0 : ℚ) : Wt), source)] (distInit g.V source) []

/-- The path-reconstruction loop of `Graph.get_shortest_path` (lines
114–118): walk parent pointers from `target`, collecting nodes, until a
`None` parent; a missing key is a `KeyError`.  The fuel models the absent
termination argument (Python would loop forever on a parent cycle); the
wrapper's fuel exceeds any acyclic chain through the parent dict. -/
def reconstruct (parent : List (Nat × Option Nat)) : Nat → Nat → Except String (List Nat)
  | 0, _ => .error "nontermination: parent cycle"
  | fuel + 1, current =>
    match alookup parent current with
    | none => .error "KeyError: parent"
    | some none => .ok [current]
    | some (some p) =>
      match reconstruct parent fuel p with
      | .ok path => .ok (current :: path)
      | .error e => .error e

/-- `Graph.get_shortest_path` (lines 75–121): run the early-breaking loop,
return `([], inf)` when `dist[target]` is the infinite sentinel, otherwise
reconstruct the path by walking parent pointers back from `target` and
reversing. -/
def Graph.get_shortest_path (g : Graph ℚ) (source target : Nat) :
    Except String (List Nat × Wt) :=
  match spLoop g target (loopFuel g) [(((0 : ℚ) : Wt), source)] (distInit g.V source)
      (parentInit g.V) [] with
  | .error e => .error e
  | .ok (dist, parent) =>
    match alookup dist target with
    | none => .error "KeyError: dist"
    | some dt =>
      if dt = ⊤ then .ok ([], ⊤)
      else
        match reconstruct parent (parent.length + 2) target with
        | .ok path => .ok (path.reverse, dt)
        | .error e => .error e

/-- `Graph.dfs` (lines 148–169): line 165 iterates `self.adj[u]`, but `u` is
not bound anywhere in the function (the docstring and the spec intend the
traversal to start at `source`), so every top-level call raises
`NameError` before visiting any neighbor. -/
def Graph.dfs {W : Type} (_g : Graph W) (_source : Nat) : Except String (List Nat) :=
  .error "NameError: name u is not defined"

/-! ## Geometry (`haversine_distance`) and the builder
(`build_graph_from_locations`) -/

/-- `math.radians`. -/
noncomputable def radians (x : ℝ) : ℝ := x * (Real.pi / 180)

/-- `haversine_distance` (lines 172–195): the haversine formula with Earth
radius 6371 km, on coordinates in degrees.  The Python float trigonometry is
idealized by exact real arithmetic.  The structural facts proved below (the
builder's shape, symmetry, `d(a,a) = 0`) are insensitive to rounding, but
the idealized function's exact zero set differs from the float code's: for
example `math.cos(math.radians(90))` is `6.12e-17` rather than `0`, so the
float code returns about `5.5e-13` between distinct points at a pole where
this real-valued function returns exactly `0`. -/
noncomputable def haversine_distance (lat1 lon1 lat2 lon2 : ℝ) : ℝ :=
  let lat1r := radians lat1
  let lon1r := radians lon1
  let lat2r := radians lat2
  let lon2r := radians lon2
  let dlat := lat2r - lat1r
  let dlon := lon2r - lon1r
  let a := Real.sin (dlat / 2) ^ 2 +
    Real.cos lat1r * Real.cos lat2r * Real.sin (dlon / 2) ^ 2
  let c := 2 * Real.arcsin (Real.sqrt a)
  c * 6371

/-- A location dict `{'id': ..., 'lat': ..., 'lon': ...}`. -/
structure Location where
  id : String
  lat : ℝ
  lon : ℝ

instance : Inhabited Location := ⟨⟨"", 0, 0⟩⟩

/-- The body of the builder's inner loop (lines 214–224): compute the
haversine distance of points `i` and `j` and insert both directed edges. -/
noncomputable def addPairEdges (locations : List Location) (i : Nat) (g : Graph ℝ)
    (j : Nat) : Graph ℝ :=
  let loc1 := locations.getD i default
  let loc2 := locations.getD j default
  let distance := haversine_distance loc1.lat loc1.lon loc2.lat loc2.lon
  (g.add_edge i j distance).add_edge j i distance

/-- `build_graph_from_locations` (lines 198–226): complete graph over the
points, with both directed edges per unordered pair, weighted by the
haversine distance.  `range(i + 1, n)` is `List.range' (i + 1) (n - (i + 1))`. -/
noncomputable def build_graph_from_locations (locations : List Location) : Graph ℝ :=
  let n := locations.length
  (List.range n).foldl
    (fun g i => (List.range' (i + 1) (n - (i + 1))).foldl (addPairEdges locations i) g)
    (Graph.mk n [] [])

/-- The weight the builder gives the two directed edges between points `i`
and `j` (computed with `i` first, as the inner loop does for `i < j`). -/
noncomputable def locDist (locations : List Location) (i j : Nat) : ℝ :=
  haversine_distance (locations.getD i default).lat (locations.getD i default).lon
    (locations.getD j default).lat (locations.getD j default).lon

/-! ## Graph construction histories (for the C8 invariant) -/

/-- One call against the mutable graph API. -/
inductive GraphOp (W : Type) where
  | addV (v : Nat)
  | addE (u v : Nat) (w : W)

/-- Apply one call. -/
def applyOp {W : Type} (g : Graph W) : GraphOp W → Graph W
  | .addV v => g.add_vertex v
  | .addE u v w => g.add_edge u v w

/-- The graph reached from `Graph()` (the empty graph) by a call sequence. -/
def buildOps {W : Type} (ops : List (GraphOp W)) : Graph W :=
  ops.foldl applyOp (Graph.mk 0 [] [])

/-! ## Basic lemmas on the mutation API -/

theorem alookup_append {α : Type} (l₁ l₂ : List (Nat × α)) (k : Nat) :
    alookup (l₁ ++ l₂) k = (alookup l₁ k).or (alookup l₂ k) := by
  induction l₁ with
  | nil => simp
  | cons hd tl ih =>
    obtain ⟨k', v⟩ := hd
    by_cases h : k' = k <;> simp [alookup, h, ih]

namespace Graph

variable {W : Type}

@[simp] theorem add_vertex_edges (g : Graph W) (v : Nat) :
    (g.add_vertex v).edges = g.edges := rfl

theorem add_vertex_V (g : Graph W) (v : Nat) :
    (g.add_vertex v).V = if g.V ≤ v then v + 1 else g.V := rfl

theorem lt_add_vertex_V (g : Graph W) (v : Nat) : v < (g.add_vertex v).V := by
  rw [add_vertex_V]
  split
  · exact Nat.lt_succ_self v
  · omega

theorem add_vertex_V_mono (g : Graph W) (v : Nat) : g.V ≤ (g.add_vertex v).V := by
  rw [add_vertex_V]
  split <;> omega

theorem alookup_add_vertex_self (g : Graph W) (v : Nat) :
    (alookup (g.add_vertex v).adj v).isSome := by
  show (alookup (if (alookup g.adj v).isSome then g.adj else g.adj ++ [(v, [])]) v).isSome
  split
  · assumption
  · rename_i h
    rw [alookup_append]
    cases hx : alookup g.adj v with
    | none => simp [alookup]
    | some val => simp [hx] at h

theorem alookup_add_vertex_isSome (g : Graph W) (v k : Nat)
    (h : (alookup g.adj k).isSome) : (alookup (g.add_vertex v).adj k).isSome := by
  show (alookup (if (alookup g.adj v).isSome then g.adj else g.adj ++ [(v, [])]) k).isSome
  split
  · exact h
  · rw [alookup_append]
    cases hx : alookup g.adj k with
    | none => simp [hx] at h
    | some val => simp [hx]

end Graph

/-- C9: `add_vertex` is idempotent, and the first call grows the vertex
count to `v + 1` exactly when `v ≥ V`, leaving the edge list untouched. -/
theorem add_vertex_idempotent {W : Type} (g : Graph W) (v : Nat) :
    (g.add_vertex v).add_vertex v = g.add_vertex v ∧
    (g.add_vertex v).V = (if g.V ≤ v then v + 1 else g.V) ∧
    (g.add_vertex v).edges = g.edges := by
  refine ⟨?_, rfl, rfl⟩
  have hV : ¬ (if g.V ≤ v then v + 1 else g.V) ≤ v := by
    split <;> omega
  have hadj :
      (alookup (if (alookup g.adj v).isSome then g.adj else g.adj ++ [(v, [])]) v).isSome :=
    g.alookup_add_vertex_self v
  show Graph.mk _ _ _ = _
  rw [Graph.add_vertex]
  simp only [Graph.mk.injEq]
  exact ⟨if_neg hV, if_pos hadj, trivial⟩

/-- The C8 invariant: every edge endpoint is below `V` and has an adjacency
entry. -/
def WFGraph {W : Type} (g : Graph W) : Prop :=
  ∀ e ∈ g.edges, e.1 < g.V ∧ e.2.1 < g.V ∧
    (alookup g.adj e.1).isSome ∧ (alookup g.adj e.2.1).isSome

theorem wf_add_vertex {W : Type} (g : Graph W) (v : Nat) (h : WFGraph g) :
    WFGraph (g.add_vertex v) := by
  intro e he
  rw [Graph.add_vertex_edges] at he
  obtain ⟨h1, h2, h3, h4⟩ := h e he
  have hm := g.add_vertex_V_mono v
  exact ⟨lt_of_lt_of_le h1 hm, lt_of_lt_of_le h2 hm,
    g.alookup_add_vertex_isSome v _ h3, g.alookup_add_vertex_isSome v _ h4⟩

theorem wf_add_edge {W : Type} (g : Graph W) (u v : Nat) (w : W) (h : WFGraph g) :
    WFGraph (g.add_edge u v w) := by
  have hg₁ : WFGraph ((g.add_vertex u).add_vertex v) :=
    wf_add_vertex _ v (wf_add_vertex g u h)
  set g₁ := (g.add_vertex u).add_vertex v with hg₁def
  have hu : (alookup g₁.adj u).isSome :=
    (g.add_vertex u).alookup_add_vertex_isSome v u (g.alookup_add_vertex_self u)
  have hv : (alookup g₁.adj v).isSome := (g.add_vertex u).alookup_add_vertex_self v
  have huV : u < g₁.V :=
    lt_of_lt_of_le (g.lt_add_vertex_V u) ((g.add_vertex u).add_vertex_V_mono v)
  have hvV : v < g₁.V := (g.add_vertex u).lt_add_vertex_V v
  intro e he
  have hadj : ∀ k, (alookup (aset g₁.adj u (g₁.adjGet u ++ [(v, w)])) k).isSome =
      (alookup g₁.adj k).isSome := fun k => alookup_aset_isSome _ _ _ _ hu
  have hVeq : (g.add_edge u v w).V = g₁.V := rfl
  have hEdges : (g.add_edge u v w).edges = g₁.edges ++ [(u, v, w)] := rfl
  rw [hEdges] at he
  rcases List.mem_append.mp he with he | he
  · obtain ⟨h1, h2, h3, h4⟩ := hg₁ e he
    exact ⟨h1, h2, by rw [show (g.add_edge u v w).adj =
      aset g₁.adj u (g₁.adjGet u ++ [(v, w)]) from rfl, hadj]; exact h3,
      by rw [show (g.add_edge u v w).adj = aset g₁.adj u (g₁.adjGet u ++ [(v, w)]) from rfl,
        hadj]; exact h4⟩
  · rw [List.mem_singleton] at he
    subst he
    refine ⟨huV, hvV, ?_, ?_⟩
    · rw [show (g.add_edge u v w).adj = aset g₁.adj u (g₁.adjGet u ++ [(v, w)]) from rfl, hadj]
      exact hu
    · rw [show (g.add_edge u v w).adj = aset g₁.adj u (g₁.adjGet u ++ [(v, w)]) from rfl, hadj]
      exact hv

/-- C8: every graph reachable from the empty graph by `add_vertex`/`add_edge`
calls keeps every edge endpoint in the vertex set, with adjacency entries for
both endpoints. -/
theorem buildOps_wf {W : Type} (ops : List (GraphOp W)) : WFGraph (buildOps ops) := by
  suffices h : ∀ (g : Graph W), WFGraph g → WFGraph (ops.foldl applyOp g) from
    h _ (fun e he => absurd he (List.not_mem_nil e))
  induction ops with
  | nil => exact fun g hg => hg
  | cons op rest ih =>
    intro g hg
    cases op with
    | addV v => exact ih _ (wf_add_vertex g v hg)
    | addE u v w => exact ih _ (wf_add_edge g u v w hg)

/-- Witness for C8 at a concrete call sequence: `add_edge(0, 5, 1)` on the
empty graph leaves the edge `(0, 5, 1)` with both endpoints in the vertex
set and with adjacency entries. -/
theorem buildOps_wf_witness :
    (0, 5, (1 : ℚ)) ∈ (buildOps [GraphOp.addE 0 5 (1 : ℚ)]).edges ∧
    (0 < (buildOps [GraphOp.addE 0 5 (1 : ℚ)]).V ∧
      5 < (buildOps [GraphOp.addE 0 5 (1 : ℚ)]).V ∧
      (alookup (buildOps [GraphOp.addE 0 5 (1 : ℚ)]).adj 0).isSome ∧
      (alookup (buildOps [GraphOp.addE 0 5 (1 : ℚ)]).adj 5).isSome) :=
  ⟨by decide, buildOps_wf [GraphOp.addE 0 5 (1 : ℚ)] (0, 5, (1 : ℚ)) (by decide)⟩

/-! ## C5: `dfs` raises `NameError` -/

/-- C5 (code bug): on the graph with the single edge `(0, 1)` the call
`dfs(0)` raises `NameError` (line 165 reads the unbound name `u`) instead of
returning the visitation order `[0, 1]` the docstring and spec describe. -/
theorem dfs_raises_on_sample :
    ((Graph.mk 0 [] [] : Graph ℚ).add_edge 0 1 1).dfs 0 =
      .error "NameError: name u is not defined" := rfl

/-! ## C6: empty point set is silently coerced, not an error -/

/-- C6 counterexample: the builder maps the empty point set to the empty
graph; no `InvalidInput` error is reported (the builder is total and cannot
signal one). -/
theorem build_empty_not_an_error :
    build_graph_from_locations [] = Graph.mk 0 [] [] := rfl

/-- C6 amended: an empty point set yields the graph with `V = 0`, no
adjacency entries and no edges, silently. -/
theorem build_empty_silent :
    (build_graph_from_locations []).V = 0 ∧
    (build_graph_from_locations []).adj = [] ∧
    (build_graph_from_locations []).edges = [] := ⟨rfl, rfl, rfl⟩

/-! ## Haversine geometry: symmetry and self-distance -/

/-- The idealized haversine distance is symmetric in its two coordinates,
and the distance from any coordinate to itself is zero.  (Both facts are
rounding-insensitive: the float code also computes them exactly, since
float subtraction negates exactly, multiplication commutes, and
`sin(0) = 0` exactly.) -/
theorem haversine_symm_and_self_zero :
    (∀ lat1 lon1 lat2 lon2 : ℝ,
      haversine_distance lat1 lon1 lat2 lon2 = haversine_distance lat2 lon2 lat1 lon1) ∧
    (∀ lat lon : ℝ, haversine_distance lat lon lat lon = 0) := by
  constructor
  · intro lat1 lon1 lat2 lon2
    unfold haversine_distance
    dsimp only
    have key : Real.sin ((radians lat1 - radians lat2) / 2) ^ 2 +
        Real.cos (radians lat2) * Real.cos (radians lat1) *
          Real.sin ((radians lon1 - radians lon2) / 2) ^ 2 =
        Real.sin ((radians lat2 - radians lat1) / 2) ^ 2 +
        Real.cos (radians lat1) * Real.cos (radians lat2) *
          Real.sin ((radians lon2 - radians lon1) / 2) ^ 2 := by
      rw [show (radians lat1 - radians lat2) / 2 = -((radians lat2 - radians lat1) / 2) by ring,
        show (radians lon1 - radians lon2) / 2 = -((radians lon2 - radians lon1) / 2) by ring,
        Real.sin_neg, Real.sin_neg, neg_sq, neg_sq, mul_comm (Real.cos (radians lat2))]
    rw [key]
  · intro lat lon
    unfold haversine_distance
    simp

/-! ## C4: the builder produces the complete graph -/

theorem add_edge_V {W : Type} (g : Graph W) (u v : Nat) (w : W) :
    (g.add_edge u v w).V = ((g.add_vertex u).add_vertex v).V := rfl

theorem add_edge_V_of_lt {W : Type} (g : Graph W) (u v : Nat) (w : W)
    (hu : u < g.V) (hv : v < g.V) : (g.add_edge u v w).V = g.V := by
  rw [add_edge_V, Graph.add_vertex_V, Graph.add_vertex_V]
  split_ifs <;> omega

theorem add_edge_edges {W : Type} (g : Graph W) (u v : Nat) (w : W) :
    (g.add_edge u v w).edges = g.edges ++ [(u, v, w)] := rfl

theorem addPairEdges_edges (locations : List Location) (i j : Nat) (g : Graph ℝ) :
    (addPairEdges locations i g j).edges =
      g.edges ++ [(i, j, locDist locations i j), (j, i, locDist locations i j)] := by
  show ((g.add_edge i j _).add_edge j i _).edges = _
  rw [add_edge_edges, add_edge_edges, List.append_assoc]
  rfl

theorem addPairEdges_V (locations : List Location) (i j : Nat) (g : Graph ℝ)
    (hi : i < g.V) (hj : j < g.V) : (addPairEdges locations i g j).V = g.V := by
  show ((g.add_edge i j _).add_edge j i _).V = _
  rw [add_edge_V_of_lt _ _ _ _
    (by rw [add_edge_V_of_lt _ _ _ _ hi hj]; exact hj)
    (by rw [add_edge_V_of_lt _ _ _ _ hi hj]; exact hi)]
  exact add_edge_V_of_lt _ _ _ _ hi hj

theorem inner_fold_edges (locations : List Location) (i : Nat) :
    ∀ (js : List Nat) (g : Graph ℝ),
      (js.foldl (addPairEdges locations i) g).edges =
        g.edges ++ js.flatMap
          (fun j => [(i, j, locDist locations i j), (j, i, locDist locations i j)]) := by
  intro js
  induction js with
  | nil => simp
  | cons j rest ih =>
    intro g
    rw [List.foldl_cons, ih, addPairEdges_edges]
    simp

theorem inner_fold_V (locations : List Location) (i : Nat) :
    ∀ (js : List Nat) (g : Graph ℝ), i < g.V → (∀ j ∈ js, j < g.V) →
      (js.foldl (addPairEdges locations i) g).V = g.V := by
  intro js
  induction js with
  | nil => intro g _ _; rfl
  | cons j rest ih =>
    intro g hi hjs
    have hj : j < g.V := hjs j (List.mem_cons_self j rest)
    have hV : (addPairEdges locations i g j).V = g.V := addPairEdges_V locations i j g hi hj
    rw [List.foldl_cons, ih (addPairEdges locations i g j) (hV ▸ hi)
      (fun j' hj' => hV ▸ hjs j' (List.mem_cons_of_mem j hj')), hV]

theorem outer_fold_edges (locations : List Location) (n : Nat) :
    ∀ (is : List Nat) (g : Graph ℝ),
      ((is.foldl (fun g i =>
          (List.range' (i + 1) (n - (i + 1))).foldl (addPairEdges locations i) g) g).edges) =
        g.edges ++ is.flatMap (fun i => (List.range' (i + 1) (n - (i + 1))).flatMap
          (fun j => [(i, j, locDist locations i j), (j, i, locDist locations i j)])) := by
  intro is
  induction is with
  | nil => simp
  | cons i rest ih =>
    intro g
    rw [List.foldl_cons, ih, inner_fold_edges]
    simp

theorem outer_fold_V (locations : List Location) (n : Nat) :
    ∀ (is : List Nat) (g : Graph ℝ), g.V = n → (∀ i ∈ is, i < n) →
      ((is.foldl (fun g i =>
          (List.range' (i + 1) (n - (i + 1))).foldl (addPairEdges locations i) g) g).V) = n := by
  intro is
  induction is with
  | nil => intro g hg _; exact hg
  | cons i rest ih =>
    intro g hg his
    have hi : i < n := his i (List.mem_cons_self i rest)
    have hinner : ((List.range' (i + 1) (n - (i + 1))).foldl (addPairEdges locations i) g).V
        = g.V := by
      refine inner_fold_V locations i _ g (by omega) ?_
      intro j hj
      rw [List.mem_range'_1] at hj
      omega
    exact ih _ (hinner.trans hg) (fun i' hi' => his i' (List.mem_cons_of_mem i hi'))

/-- The builder's edge list, in loop order. -/
theorem build_edges (locations : List Location) :
    (build_graph_from_locations locations).edges =
      (List.range locations.length).flatMap
        (fun i => (List.range' (i + 1) (locations.length - (i + 1))).flatMap
          (fun j => [(i, j, locDist locations i j), (j, i, locDist locations i j)])) := by
  unfold build_graph_from_locations
  rw [outer_fold_edges]
  rfl

theorem build_V (locations : List Location) :
    (build_graph_from_locations locations).V = locations.length := by
  unfold build_graph_from_locations
  refine outer_fold_V locations _ _ _ rfl ?_
  intro i hi
  rwa [List.mem_range] at hi

theorem sum_map_range_eq (f : Nat → Nat) :
    ∀ n, ((List.range n).map f).sum = ∑ i ∈ Finset.range n, f i := by
  intro n
  induction n with
  | zero => simp
  | succ n ih => rw [List.range_succ]; simp [ih, Finset.sum_range_succ]

theorem sum_map_const_two {α : Type} (l : List α) :
    (l.map fun _ => (2 : Nat)).sum = 2 * l.length := by
  induction l with
  | nil => simp
  | cons x rest ih =>
    rw [List.map_cons, List.sum_cons, ih, List.length_cons]
    omega

theorem build_edges_length (locations : List Location) :
    (build_graph_from_locations locations).edges.length =
      locations.length * (locations.length - 1) := by
  set n := locations.length with hn
  rw [build_edges, List.length_flatMap]
  have hinner : ∀ i, (List.length ∘ fun i =>
      (List.range' (i + 1) (n - (i + 1))).flatMap
        (fun j => [(i, j, locDist locations i j), (j, i, locDist locations i j)])) i =
      2 * (n - 1 - i) := by
    intro i
    show ((List.range' (i + 1) (n - (i + 1))).flatMap _).length = _
    rw [List.length_flatMap]
    have hmapconst : List.map
        (List.length ∘ fun j => [(i, j, locDist locations i j), (j, i, locDist locations i j)])
        (List.range' (i + 1) (n - (i + 1))) =
        List.map (fun _ => 2) (List.range' (i + 1) (n - (i + 1))) :=
      List.map_congr_left fun j _ => rfl
    rw [hmapconst, sum_map_const_two, List.length_range']
    omega
  rw [List.map_congr_left fun i _ => hinner i, sum_map_range_eq]
  have hreflect := Finset.sum_range_reflect (fun i => 2 * i) n
  simp only at hreflect
  rw [hreflect, ← Finset.mul_sum, mul_comm, Finset.sum_range_id_mul_two]

/-- Both directed edges between any two distinct indices appear, weighted by
the haversine distance of the two points. -/
theorem build_edges_mem (locations : List Location) (i j : Nat)
    (hij : i < j) (hj : j < locations.length) :
    (i, j, locDist locations i j) ∈ (build_graph_from_locations locations).edges ∧
    (j, i, locDist locations i j) ∈ (build_graph_from_locations locations).edges := by
  have hi' : i ∈ List.range locations.length := by
    rw [List.mem_range]; omega
  have hj' : j ∈ List.range' (i + 1) (locations.length - (i + 1)) := by
    rw [List.mem_range'_1]; omega
  rw [build_edges]
  constructor
  · rw [List.mem_flatMap]
    exact ⟨i, hi', by rw [List.mem_flatMap]; exact ⟨j, hj', by simp⟩⟩
  · rw [List.mem_flatMap]
    exact ⟨i, hi', by rw [List.mem_flatMap]; exact ⟨j, hj', by simp⟩⟩

/-- C4: over `N` points the builder yields `V = N` and exactly `N*(N-1)`
directed edges, with both directions of every unordered pair present and
weighted by the haversine distance of the endpoints; the empty list yields
the empty graph rather than an error. -/
theorem build_graph_complete (locations : List Location) :
    (build_graph_from_locations locations).V = locations.length ∧
    (build_graph_from_locations locations).edges.length =
      locations.length * (locations.length - 1) ∧
    (∀ i j, i < j → j < locations.length →
      (i, j, locDist locations i j) ∈ (build_graph_from_locations locations).edges ∧
      (j, i, locDist locations i j) ∈ (build_graph_from_locations locations).edges) ∧
    build_graph_from_locations [] = Graph.mk 0 [] [] :=
  ⟨build_V locations, build_edges_length locations,
    fun i j hij hj => build_edges_mem locations i j hij hj, rfl⟩

/-- Witness for C4 on a concrete two-point list: the hypotheses `0 < 1` and
`1 < length` hold and the theorem instantiates. -/
theorem build_graph_complete_witness :
    (0 : Nat) < 1 ∧ 1 < ([⟨"a", 1, 2⟩, ⟨"b", 3, 4⟩] : List Location).length ∧
    ((0, 1, locDist [⟨"a", 1, 2⟩, ⟨"b", 3, 4⟩] 0 1) ∈
        (build_graph_from_locations [⟨"a", 1, 2⟩, ⟨"b", 3, 4⟩]).edges ∧
      (1, 0, locDist [⟨"a", 1, 2⟩, ⟨"b", 3, 4⟩] 0 1) ∈
        (build_graph_from_locations [⟨"a", 1, 2⟩, ⟨"b", 3, 4⟩]).edges) :=
  ⟨Nat.zero_lt_one, by norm_num,
    (build_graph_complete [⟨"a", 1, 2⟩, ⟨"b", 3, 4⟩]).2.2.1 0 1 Nat.zero_lt_one (by norm_num)⟩

/-! ## Dijkstra verification: well-formedness, reachability, measure -/

/-- Well-formed adjacency structure: every adjacency key and every adjacency
target lies below `V`.  Graphs built through the `add_vertex`/`add_edge` API
satisfy this (C8); Python dict semantics outside it are still modelled (a
missing key is a `KeyError`). -/
def WFadj (g : Graph ℚ) : Prop :=
  ∀ p ∈ g.adj, p.1 < g.V ∧ ∀ e ∈ p.2, e.1 < g.V

/-- All adjacency weights are non-negative (the Dijkstra precondition). -/
def NNadj (g : Graph ℚ) : Prop := ∀ p ∈ g.adj, ∀ e ∈ p.2, 0 ≤ e.2

theorem alookup_mem {α : Type} (l : List (Nat × α)) (k : Nat) (v : α)
    (h : alookup l k = some v) : (k, v) ∈ l := by
  induction l with
  | nil => simp at h
  | cons hd tl ih =>
    obtain ⟨k', v'⟩ := hd
    rw [alookup_cons] at h
    split at h
    · rename_i heq
      cases h
      subst heq
      exact List.mem_cons_self _ _
    · exact List.mem_cons_of_mem _ (ih h)

theorem alookup_eq_none_of_keys {α : Type} (l : List (Nat × α)) (k : Nat)
    (h : ∀ p ∈ l, p.1 ≠ k) : alookup l k = none := by
  induction l with
  | nil => rfl
  | cons hd tl ih =>
    obtain ⟨k', v'⟩ := hd
    rw [alookup_cons, if_neg (h (k', v') (List.mem_cons_self _ _))]
    exact ih fun p hp => h p (List.mem_cons_of_mem _ hp)

theorem adjGet_target_lt (g : Graph ℚ) (hwf : WFadj g) (u : Nat) :
    ∀ e ∈ g.adjGet u, e.1 < g.V := by
  intro e he
  unfold Graph.adjGet at he
  cases hl : alookup g.adj u with
  | none => rw [hl] at he; simp at he
  | some l =>
    rw [hl] at he
    exact (hwf (u, l) (alookup_mem _ _ _ hl)).2 e he

theorem adjGet_nonneg (g : Graph ℚ) (hnn : NNadj g) (u : Nat) :
    ∀ e ∈ g.adjGet u, 0 ≤ e.2 := by
  intro e he
  unfold Graph.adjGet at he
  cases hl : alookup g.adj u with
  | none => rw [hl] at he; simp at he
  | some l =>
    rw [hl] at he
    exact hnn (u, l) (alookup_mem _ _ _ hl) e he

theorem adjGet_of_ge (g : Graph ℚ) (hwf : WFadj g) (u : Nat) (hu : g.V ≤ u) :
    g.adjGet u = [] := by
  unfold Graph.adjGet
  rw [alookup_eq_none_of_keys g.adj u (fun p hp => by have := (hwf p hp).1; omega)]
  rfl

/-- One directed hop along the adjacency structure. -/
def EdgeStep (g : Graph ℚ) (a b : Nat) : Prop := ∃ w, (b, w) ∈ g.adjGet a

/-- Reachability along directed adjacency hops. -/
def Reach (g : Graph ℚ) (s v : Nat) : Prop := Relation.ReflTransGen (EdgeStep g) s v

theorem reach_refl (g : Graph ℚ) (s : Nat) : Reach g s s := Relation.ReflTransGen.refl

theorem not_reach_of_src_ge (g : Graph ℚ) (hwf : WFadj g) (s v : Nat)
    (hs : g.V ≤ s) (hv : v ≠ s) : ¬ Reach g s v := by
  intro h
  rcases Relation.ReflTransGen.cases_head h with h | ⟨x, hsx, _⟩
  · exact hv h.symm
  · obtain ⟨w, hw⟩ := hsx
    rw [adjGet_of_ge g hwf s hs] at hw
    simp at hw

/-- The loop measure: pending queue entries plus adjacency entries of
not-yet-visited keys.  It strictly drops at each loop iteration. -/
def loopMeasure (g : Graph ℚ) (pq : List (Wt × Nat)) (visited : List Nat) : Nat :=
  pq.length + remAdj g visited

theorem sum_filter_mono (vis vis' : List Nat)
    (himp : ∀ k, k ∉ vis' → k ∉ vis) :
    ∀ (l : List (Nat × List (Nat × ℚ))),
      ((l.filter fun p => decide (p.1 ∉ vis')).map fun p => p.2.length).sum ≤
        ((l.filter fun p => decide (p.1 ∉ vis)).map fun p => p.2.length).sum := by
  intro l
  induction l with
  | nil => simp
  | cons hd tl ih =>
    by_cases h' : hd.1 ∉ vis'
    · have h : hd.1 ∉ vis := himp _ h'
      rw [List.filter_cons_of_pos (by simpa using h'), List.filter_cons_of_pos (by simpa using h)]
      simpa using ih
    · rw [List.filter_cons_of_neg (by simpa using h')]
      by_cases h : hd.1 ∉ vis
      · rw [List.filter_cons_of_pos (by simpa using h)]
        simp only [List.map_cons, List.sum_cons]
        omega
      · rw [List.filter_cons_of_neg (by simpa using h)]
        exact ih

theorem remAdj_cons (g : Graph ℚ) (u : Nat) (visited : List Nat) (hu : u ∉ visited) :
    remAdj g (u :: visited) + (g.adjGet u).length ≤ remAdj g visited := by
  unfold remAdj Graph.adjGet
  induction g.adj with
  | nil => simp
  | cons hd tl ih =>
    obtain ⟨k, l⟩ := hd
    by_cases hk : k = u
    · subst hk
      rw [List.filter_cons_of_neg (by simp), List.filter_cons_of_pos (by simpa using hu)]
      rw [alookup_cons, if_pos rfl]
      simp only [List.map_cons, List.sum_cons, Option.getD_some]
      have := sum_filter_mono visited (k :: visited)
        (fun k' hk' => fun hmem => hk' (List.mem_cons_of_mem _ hmem)) tl
      omega
    · rw [alookup_cons, if_neg hk]
      by_cases hkv : k ∈ visited
      · rw [List.filter_cons_of_neg (by simp [hkv]), List.filter_cons_of_neg (by simpa using hkv)]
        exact ih
      · have hkuv : k ∉ u :: visited := by
          intro hmem
          rcases List.mem_cons.mp hmem with h | h
          · exact hk h
          · exact hkv h
        rw [List.filter_cons_of_pos (by simpa using hkuv),
          List.filter_cons_of_pos (by simpa using hkv)]
        simp only [List.map_cons, List.sum_cons]
        omega

/-! ## The parent map does not influence distances: erasure -/

/-- `relaxNbrsP` and `relaxNbrs` agree on the distance map and the queue
(and on raising), differing only in the parent map the former threads. -/
theorem relax_erase (u : Nat) :
    ∀ (ns : List (Nat × ℚ)) (dist : List (Nat × Wt)) (parent : List (Nat × Option Nat))
      (pq : List (Wt × Nat)),
      (relaxNbrsP u dist parent pq ns).map (fun r => (r.1, r.2.2)) =
        (relaxNbrs u dist pq ns).map (fun r => (r.1, r.2)) := by
  intro ns
  induction ns with
  | nil => intro dist parent pq; rfl
  | cons e rest ih =>
    intro dist parent pq
    obtain ⟨v, w⟩ := e
    cases hdu : alookup dist u with
    | none =>
      cases hdv : alookup dist v <;>
        (simp only [relaxNbrsP, relaxNbrs, hdu, hdv]; rfl)
    | some du =>
      cases hdv : alookup dist v with
      | none => simp only [relaxNbrsP, relaxNbrs, hdu, hdv]; rfl
      | some dv =>
        simp only [relaxNbrsP, relaxNbrs, hdu, hdv]
        split
        · exact ih _ _ _
        · exact ih _ _ _

/-! ## Initial-state and queue lemmas -/

theorem alookup_map_range {α : Type} (f : Nat → α) :
    ∀ (V k : Nat), alookup ((List.range V).map fun i => (i, f i)) k =
      if k < V then some (f k) else none := by
  intro V
  induction V with
  | zero => intro k; simp
  | succ V ih =>
    intro k
    rw [List.range_succ, List.map_append, alookup_append, ih]
    by_cases h : k < V
    · rw [if_pos h, if_pos (by omega)]
      rfl
    · rw [if_neg h]
      show alookup [(V, f V)] k = _
      rw [alookup_cons]
      by_cases h' : k = V
      · subst h'
        rw [if_pos rfl, if_pos (by omega)]
      · rw [if_neg (fun hh => h' hh.symm), if_neg (by omega)]
        rfl

theorem distInit_lookup (V source k : Nat) :
    alookup (distInit V source) k =
      if k = source then some ((0 : ℚ) : Wt) else if k < V then some ⊤ else none := by
  unfold distInit
  by_cases h : k = source
  · subst h
    rw [if_pos rfl, alookup_aset_self]
  · rw [if_neg h, alookup_aset_ne _ _ _ _ (fun he => h he.symm), alookup_map_range]

theorem distInit_keys (V source k : Nat) :
    (alookup (distInit V source) k).isSome ↔ (k < V ∨ k = source) := by
  rw [distInit_lookup]
  by_cases h : k = source
  · simp [h]
  · by_cases h' : k < V <;> simp [h, h']

theorem parentInit_lookup (V k : Nat) :
    alookup (parentInit V) k = if k < V then some none else none := by
  unfold parentInit
  rw [alookup_map_range]

theorem pqPush_length (e : Wt × Nat) (pq : List (Wt × Nat)) :
    (pqPush e pq).length = pq.length + 1 :=
  List.orderedInsert_length pqLe pq e

theorem mem_pqPush (x e : Wt × Nat) (pq : List (Wt × Nat)) :
    x ∈ pqPush e pq ↔ x = e ∨ x ∈ pq :=
  List.mem_orderedInsert pqLe

/-! ## Relaxation: basic facts (no sign condition on weights) -/

theorem relaxP_basic (g : Graph ℚ) (source u : Nat) (hru : Reach g source u) :
    ∀ (ns : List (Nat × ℚ)) (dist : List (Nat × Wt)) (parent : List (Nat × Option Nat))
      (pq : List (Wt × Nat)),
      (∀ e ∈ ns, e.1 < g.V ∧ (e.1, e.2) ∈ g.adjGet u) →
      (alookup dist u).isSome →
      (∀ k, (alookup dist k).isSome ↔ (k < g.V ∨ k = source)) →
      (∀ v dv, alookup dist v = some dv → dv ≠ ⊤ → Reach g source v) →
      (∀ e ∈ pq, (alookup dist e.2).isSome) →
      (∀ e ∈ pq, Reach g source e.2) →
      ∃ dist' parent' pq',
        relaxNbrsP u dist parent pq ns = .ok (dist', parent', pq') ∧
        (∀ k, (alookup dist' k).isSome ↔ (k < g.V ∨ k = source)) ∧
        (∀ v dv, alookup dist' v = some dv → dv ≠ ⊤ → Reach g source v) ∧
        (∀ e ∈ pq', (alookup dist' e.2).isSome) ∧
        (∀ e ∈ pq', Reach g source e.2) ∧
        pq'.length ≤ pq.length + ns.length := by
  intro ns
  induction ns with
  | nil =>
    intro dist parent pq _ _ hkeys hreach hpqK hpqR
    exact ⟨dist, parent, pq, rfl, hkeys, hreach, hpqK, hpqR, by omega⟩
  | cons e rest ih =>
    intro dist parent pq hns hu hkeys hreach hpqK hpqR
    obtain ⟨v, w⟩ := e
    obtain ⟨hvV, hvadj⟩ := hns (v, w) (List.mem_cons_self _ _)
    obtain ⟨du, hdu⟩ := Option.isSome_iff_exists.mp hu
    obtain ⟨dv, hdv⟩ := Option.isSome_iff_exists.mp
      ((hkeys v).mpr (Or.inl hvV))
    simp only [relaxNbrsP, hdu, hdv]
    by_cases hlt : du + (w : Wt) < dv
    · rw [if_pos hlt]
      have hne : du + (w : Wt) ≠ ⊤ := ne_top_of_lt hlt
      have hdune : du ≠ ⊤ := by
        intro h
        rw [h, top_add] at hne
        exact hne rfl
      have hrv : Reach g source v := hru.tail ⟨w, hvadj⟩
      have hkeys₂ : ∀ k, (alookup (aset dist v (du + (w : Wt))) k).isSome ↔
          (k < g.V ∨ k = source) := by
        intro k
        rw [alookup_aset_isSome _ _ _ _ (Option.isSome_iff_exists.mpr ⟨dv, hdv⟩)]
        exact hkeys k
      have hreach₂ : ∀ x dx, alookup (aset dist v (du + (w : Wt))) x = some dx →
          dx ≠ ⊤ → Reach g source x := by
        intro x dx hdx hxne
        by_cases hx : x = v
        · exact hx ▸ hrv
        · rw [alookup_aset_ne _ _ _ _ (fun he => hx he.symm)] at hdx
          exact hreach x dx hdx hxne
      have hu₂ : (alookup (aset dist v (du + (w : Wt))) u).isSome := by
        rw [alookup_aset_isSome _ _ _ _ (Option.isSome_iff_exists.mpr ⟨dv, hdv⟩)]
        exact hu
      have hpqK₂ : ∀ e ∈ pqPush (du + (w : Wt), v) pq,
          (alookup (aset dist v (du + (w : Wt))) e.2).isSome := by
        intro e he
        rcases (mem_pqPush e _ pq).mp he with he | he
        · subst he
          rw [alookup_aset_self]
          rfl
        · rw [alookup_aset_isSome _ _ _ _ (Option.isSome_iff_exists.mpr ⟨dv, hdv⟩)]
          exact hpqK e he
      have hpqR₂ : ∀ e ∈ pqPush (du + (w : Wt), v) pq, Reach g source e.2 := by
        intro e he
        rcases (mem_pqPush e _ pq).mp he with he | he
        · subst he
          exact hrv
        · exact hpqR e he
      obtain ⟨dist', parent', pq', hok, h1, h2, h3, h4, h5⟩ :=
        ih (aset dist v (du + (w : Wt))) (aset parent v (some u))
          (pqPush (du + (w : Wt), v) pq)
          (fun e he => hns e (List.mem_cons_of_mem _ he)) hu₂ hkeys₂ hreach₂ hpqK₂ hpqR₂
      refine ⟨dist', parent', pq', hok, h1, h2, h3, h4, ?_⟩
      rw [pqPush_length] at h5
      simp only [List.length_cons]
      omega
    · rw [if_neg hlt]
      obtain ⟨dist', parent', pq', hok, h1, h2, h3, h4, h5⟩ :=
        ih dist parent pq (fun e he => hns e (List.mem_cons_of_mem _ he)) hu hkeys hreach
          hpqK hpqR
      refine ⟨dist', parent', pq', hok, h1, h2, h3, h4, ?_⟩
      simp only [List.length_cons]
      omega

theorem relax_of_relaxP (u : Nat) (ns : List (Nat × ℚ)) (dist : List (Nat × Wt))
    (parent : List (Nat × Option Nat)) (pq : List (Wt × Nat))
    (dist' : List (Nat × Wt)) (parent' : List (Nat × Option Nat)) (pq' : List (Wt × Nat))
    (h : relaxNbrsP u dist parent pq ns = .ok (dist', parent', pq')) :
    relaxNbrs u dist pq ns = .ok (dist', pq') := by
  have herase := relax_erase u ns dist parent pq
  rw [h] at herase
  cases hr : relaxNbrs u dist pq ns with
  | error e =>
    rw [hr] at herase
    exact absurd herase (by simp [Except.map])
  | ok r =>
    rw [hr] at herase
    simp only [Except.map, Except.ok.injEq] at herase
    obtain ⟨h1, h2⟩ := Prod.mk.injEq .. ▸ herase
    obtain ⟨rd, rq⟩ := r
    simp only at h1 h2
    rw [h1, h2]

/-! ## Basic loop lemmas: error-freedom, key set, reachability -/

theorem spLoop_basic (g : Graph ℚ) (source target : Nat) (hwf : WFadj g) :
    ∀ (fuel : Nat) (pq : List (Wt × Nat)) (dist : List (Nat × Wt))
      (parent : List (Nat × Option Nat)) (visited : List Nat),
      loopMeasure g pq visited < fuel →
      (∀ k, (alookup dist k).isSome ↔ (k < g.V ∨ k = source)) →
      (∀ v dv, alookup dist v = some dv → dv ≠ ⊤ → Reach g source v) →
      (∀ e ∈ pq, (alookup dist e.2).isSome) →
      (∀ e ∈ pq, Reach g source e.2) →
      ∃ dist' parent',
        spLoop g target fuel pq dist parent visited = .ok (dist', parent') ∧
        (∀ k, (alookup dist' k).isSome ↔ (k < g.V ∨ k = source)) ∧
        (∀ v dv, alookup dist' v = some dv → dv ≠ ⊤ → Reach g source v) := by
  intro fuel
  induction fuel with
  | zero =>
    intro pq dist parent visited hfuel _ _ _ _
    omega
  | succ fuel ih =>
    intro pq dist parent visited hfuel hkeys hreach hpqK hpqR
    match pq with
    | [] => exact ⟨dist, parent, rfl, hkeys, hreach⟩
    | (d, u) :: rest =>
      rw [spLoop]
      by_cases htgt : u = target
      · rw [if_pos htgt]
        exact ⟨dist, parent, rfl, hkeys, hreach⟩
      · rw [if_neg htgt]
        by_cases hvis : u ∈ visited
        · rw [if_pos hvis]
          refine ih rest dist parent visited ?_ hkeys hreach
            (fun e he => hpqK e (List.mem_cons_of_mem _ he))
            (fun e he => hpqR e (List.mem_cons_of_mem _ he))
          unfold loopMeasure at hfuel ⊢
          simp only [List.length_cons] at hfuel
          omega
        · rw [if_neg hvis]
          have hru : Reach g source u := hpqR (d, u) (List.mem_cons_self _ _)
          have hu : (alookup dist u).isSome := hpqK (d, u) (List.mem_cons_self _ _)
          obtain ⟨dist', parent', pq', hok, h1, h2, h3, h4, h5⟩ :=
            relaxP_basic g source u hru (g.adjGet u) dist parent rest
              (fun e he => ⟨adjGet_target_lt g hwf u e he, he⟩) hu hkeys hreach
              (fun e he => hpqK e (List.mem_cons_of_mem _ he))
              (fun e he => hpqR e (List.mem_cons_of_mem _ he))
          rw [hok]
          refine ih pq' dist' parent' (u :: visited) ?_ h1 h2 h3 h4
          have hrem := remAdj_cons g u visited hvis
          unfold loopMeasure at hfuel ⊢
          simp only [List.length_cons] at hfuel
          omega

theorem djLoop_basic (g : Graph ℚ) (source : Nat) (hwf : WFadj g) :
    ∀ (fuel : Nat) (pq : List (Wt × Nat)) (dist : List (Nat × Wt)) (visited : List Nat),
      loopMeasure g pq visited < fuel →
      (∀ k, (alookup dist k).isSome ↔ (k < g.V ∨ k = source)) →
      (∀ v dv, alookup dist v = some dv → dv ≠ ⊤ → Reach g source v) →
      (∀ e ∈ pq, (alookup dist e.2).isSome) →
      (∀ e ∈ pq, Reach g source e.2) →
      ∃ dist',
        dijkstraLoop g fuel pq dist visited = .ok dist' ∧
        (∀ k, (alookup dist' k).isSome ↔ (k < g.V ∨ k = source)) ∧
        (∀ v dv, alookup dist' v = some dv → dv ≠ ⊤ → Reach g source v) := by
  intro fuel
  induction fuel with
  | zero =>
    intro pq dist visited hfuel _ _ _ _
    omega
  | succ fuel ih =>
    intro pq dist visited hfuel hkeys hreach hpqK hpqR
    match pq with
    | [] => exact ⟨dist, rfl, hkeys, hreach⟩
    | (d, u) :: rest =>
      rw [dijkstraLoop]
      by_cases hvis : u ∈ visited
      · rw [if_pos hvis]
        refine ih rest dist visited ?_ hkeys hreach
          (fun e he => hpqK e (List.mem_cons_of_mem _ he))
          (fun e he => hpqR e (List.mem_cons_of_mem _ he))
        unfold loopMeasure at hfuel ⊢
        simp only [List.length_cons] at hfuel
        omega
      · rw [if_neg hvis]
        have hru : Reach g source u := hpqR (d, u) (List.mem_cons_self _ _)
        have hu : (alookup dist u).isSome := hpqK (d, u) (List.mem_cons_self _ _)
        obtain ⟨dist', parent', pq', hok, h1, h2, h3, h4, h5⟩ :=
          relaxP_basic g source u hru (g.adjGet u) dist [] rest
            (fun e he => ⟨adjGet_target_lt g hwf u e he, he⟩) hu hkeys hreach
            (fun e he => hpqK e (List.mem_cons_of_mem _ he))
            (fun e he => hpqR e (List.mem_cons_of_mem _ he))
        rw [relax_of_relaxP u (g.adjGet u) dist [] rest dist' parent' pq' hok]
        refine ih pq' dist' (u :: visited) ?_ h1 h2 h3 h4
        have hrem := remAdj_cons g u visited hvis
        unfold loopMeasure at hfuel ⊢
        simp only [List.length_cons] at hfuel
        omega

/-! ## Runs from the initial state -/

theorem distInit_reach (g : Graph ℚ) (source : Nat) :
    ∀ v dv, alookup (distInit g.V source) v = some dv → dv ≠ ⊤ → Reach g source v := by
  intro v dv hdv hne
  rw [distInit_lookup] at hdv
  by_cases h : v = source
  · exact h ▸ reach_refl g source
  · rw [if_neg h] at hdv
    by_cases h' : v < g.V
    · rw [if_pos h'] at hdv
      cases hdv
      exact absurd rfl hne
    · rw [if_neg h'] at hdv
      cases hdv

theorem init_measure_lt (g : Graph ℚ) :
    loopMeasure g [(((0 : ℚ) : Wt), source)] [] < loopFuel g := by
  unfold loopMeasure loopFuel
  simp only [List.length_singleton]
  omega

theorem sp_init_run (g : Graph ℚ) (source target : Nat) (hwf : WFadj g) :
    ∃ dist' parent',
      spLoop g target (loopFuel g) [(((0 : ℚ) : Wt), source)] (distInit g.V source)
        (parentInit g.V) [] = .ok (dist', parent') ∧
      (∀ k, (alookup dist' k).isSome ↔ (k < g.V ∨ k = source)) ∧
      (∀ v dv, alookup dist' v = some dv → dv ≠ ⊤ → Reach g source v) := by
  refine spLoop_basic g source target hwf (loopFuel g) _ _ _ []
    (init_measure_lt g) (distInit_keys g.V source) (distInit_reach g source) ?_ ?_
  · intro e he
    rw [List.mem_singleton] at he
    subst he
    rw [Option.isSome_iff_exists]
    exact ⟨_, (distInit_lookup g.V source source).trans (if_pos rfl)⟩
  · intro e he
    rw [List.mem_singleton] at he
    subst he
    exact reach_refl g source

theorem dj_init_run (g : Graph ℚ) (source : Nat) (hwf : WFadj g) :
    ∃ dm, g.dijkstra source = .ok dm ∧
      (∀ k, (alookup dm k).isSome ↔ (k < g.V ∨ k = source)) ∧
      (∀ v dv, alookup dm v = some dv → dv ≠ ⊤ → Reach g source v) := by
  refine djLoop_basic g source hwf (loopFuel g) _ _ []
    (init_measure_lt g) (distInit_keys g.V source) (distInit_reach g source) ?_ ?_
  · intro e he
    rw [List.mem_singleton] at he
    subst he
    rw [Option.isSome_iff_exists]
    exact ⟨_, (distInit_lookup g.V source source).trans (if_pos rfl)⟩
  · intro e he
    rw [List.mem_singleton] at he
    subst he
    exact reach_refl g source

/-- C3: an in-range target unreachable from the source is a normal outcome:
`get_shortest_path` returns the empty path with the infinite sentinel (no
error), and `dijkstra` maps the target to the infinite sentinel. -/
theorem unreachable_target_normal (g : Graph ℚ) (source target : Nat) (hwf : WFadj g)
    (htV : target < g.V) (hnr : ¬ Reach g source target) :
    g.get_shortest_path source target = .ok ([], ⊤) ∧
    ∃ dm, g.dijkstra source = .ok dm ∧ alookup dm target = some ⊤ := by
  constructor
  · obtain ⟨dist', parent', hok, hkeys, hreach⟩ := sp_init_run g source target hwf
    have hdt : alookup dist' target = some ⊤ := by
      obtain ⟨dt, hdt⟩ := Option.isSome_iff_exists.mp ((hkeys target).mpr (Or.inl htV))
      by_cases h : dt = ⊤
      · exact h ▸ hdt
      · exact absurd (hreach target dt hdt h) hnr
    unfold Graph.get_shortest_path
    rw [hok]
    dsimp only
    rw [hdt]
    dsimp only
    rw [if_pos rfl]
  · obtain ⟨dm, hok, hkeys, hreach⟩ := dj_init_run g source hwf
    refine ⟨dm, hok, ?_⟩
    obtain ⟨dt, hdt⟩ := Option.isSome_iff_exists.mp ((hkeys target).mpr (Or.inl htV))
    by_cases h : dt = ⊤
    · exact h ▸ hdt
    · exact absurd (hreach target dt hdt h) hnr

/-- Witness for C3: in the graph built by `add_edge(0, 1, 1)`, node `0` is
not reachable from node `1`; the solve returns `([], inf)` and `dijkstra(1)`
maps `0` to the sentinel. -/
theorem unreachable_target_normal_witness :
    (0 < (buildOps [GraphOp.addE 0 1 (1 : ℚ)]).V ∧
      ¬ Reach (buildOps [GraphOp.addE 0 1 (1 : ℚ)]) 1 0) ∧
    (buildOps [GraphOp.addE 0 1 (1 : ℚ)]).get_shortest_path 1 0 = .ok ([], ⊤) ∧
    ∃ dm, (buildOps [GraphOp.addE 0 1 (1 : ℚ)]).dijkstra 1 = .ok dm ∧
      alookup dm 0 = some ⊤ := by
  have hnr : ¬ Reach (buildOps [GraphOp.addE 0 1 (1 : ℚ)]) 1 0 := by
    intro h
    rcases Relation.ReflTransGen.cases_head h with h | ⟨x, ⟨w, hw⟩, _⟩
    · exact absurd h (by decide)
    · have hempty : (buildOps [GraphOp.addE 0 1 (1 : ℚ)]).adjGet 1 = [] := by decide
      rw [hempty] at hw
      exact absurd hw (List.not_mem_nil _)
  exact ⟨⟨by decide, hnr⟩,
    unreachable_target_normal (buildOps [GraphOp.addE 0 1 (1 : ℚ)]) 1 0
      (by unfold WFadj; decide) (by decide) hnr⟩

/-! ## C10: partiality of `get_shortest_path` in its arguments -/

/-- C10 amended: for a well-formed graph, a target outside `[0, V)` other
than the source leaves `dist[target]` without an entry, so the final lookup
raises `KeyError`; an out-of-range source with an in-range target is
accepted and yields `([], inf)`; but when source = target lie outside
`[0, V)`, `dist[target]` does have an entry (0, created by `dist[source] = 0`)
and the call still fails — with a `KeyError` on `parent[source]` during
reconstruction. -/
theorem sp_target_partiality (g : Graph ℚ) (source target : Nat) (hwf : WFadj g) :
    (g.V ≤ target → target ≠ source →
      g.get_shortest_path source target = .error "KeyError: dist") ∧
    (g.V ≤ source → target < g.V →
      g.get_shortest_path source target = .ok ([], ⊤)) ∧
    (g.V ≤ source → source = target →
      g.get_shortest_path source target = .error "KeyError: parent") := by
  refine ⟨?_, ?_, ?_⟩
  · intro htV hts
    obtain ⟨dist', parent', hok, hkeys, _⟩ := sp_init_run g source target hwf
    have hnone : alookup dist' target = none := by
      cases h : alookup dist' target with
      | none => rfl
      | some dt =>
        have : target < g.V ∨ target = source :=
          (hkeys target).mp (by rw [h]; rfl)
        rcases this with h' | h'
        · omega
        · exact absurd h' hts
    unfold Graph.get_shortest_path
    rw [hok]
    dsimp only
    rw [hnone]
  · intro hsV htV
    have hts : target ≠ source := by omega
    have hnr : ¬ Reach g source target := not_reach_of_src_ge g hwf source target hsV hts
    obtain ⟨dist', parent', hok, hkeys, hreach⟩ := sp_init_run g source target hwf
    have hdt : alookup dist' target = some ⊤ := by
      obtain ⟨dt, hdt⟩ := Option.isSome_iff_exists.mp ((hkeys target).mpr (Or.inl htV))
      by_cases h : dt = ⊤
      · exact h ▸ hdt
      · exact absurd (hreach target dt hdt h) hnr
    unfold Graph.get_shortest_path
    rw [hok]
    dsimp only
    rw [hdt]
    dsimp only
    rw [if_pos rfl]
  · intro hsV hst
    subst hst
    unfold Graph.get_shortest_path
    rw [show loopFuel g = (remAdj g [] + 1) + 1 from rfl, spLoop]
    rw [if_pos rfl]
    dsimp only
    rw [(distInit_lookup g.V source source).trans (if_pos rfl)]
    dsimp only
    rw [if_neg (by exact WithTop.coe_ne_top)]
    rw [show (parentInit g.V).length + 2 = ((parentInit g.V).length + 1) + 1 from rfl,
      reconstruct]
    rw [parentInit_lookup, if_neg (by omega)]

/-- C10 counterexample: on the empty graph with source = target = 0 (a
target outside `[0, V)` that relaxation never touches) the final distance
map does hold an entry for the target — value 0, created by
`dist[source] = 0` — and the call nevertheless fails, via `KeyError` on
`parent[0]`; in particular this out-of-range source is not accepted. -/
theorem sp_partiality_counterexample :
    (Graph.mk 0 [] [] : Graph ℚ).get_shortest_path 0 0 = .error "KeyError: parent" ∧
    spLoop (Graph.mk 0 [] [] : Graph ℚ) 0 (loopFuel (Graph.mk 0 [] []))
      [(((0 : ℚ) : Wt), 0)] (distInit 0 0) (parentInit 0) [] =
        .ok ([(0, ((0 : ℚ) : Wt))], []) ∧
    alookup [(0, ((0 : ℚ) : Wt))] 0 = some ((0 : ℚ) : Wt) :=
  ⟨rfl, rfl, rfl⟩

/-- Witness for C10 (amended): on the concrete graph with edge `(0, 1)`,
target `5` lies outside `[0, V)` and differs from source `0`, and the call
raises the `dist` `KeyError`. -/
theorem sp_target_partiality_witness :
    (buildOps [GraphOp.addE 0 1 (1 : ℚ)]).V ≤ 5 ∧ (5 : Nat) ≠ 0 ∧
    (buildOps [GraphOp.addE 0 1 (1 : ℚ)]).get_shortest_path 0 5 =
      .error "KeyError: dist" :=
  ⟨by decide, by decide,
    (sp_target_partiality (buildOps [GraphOp.addE 0 1 (1 : ℚ)]) 0 5
      (by unfold WFadj; decide)).1 (by decide) (by decide)⟩

/-! ## Full loop invariants (non-negative weights) -/

/-- The Dijkstra loop invariant, shared by both loops: the queue is sorted;
the distance dict covers exactly `range V ∪ {source}`; distances are
non-negative and the source sits at 0; every queue entry dominates the
current distance of its node and carries a finite key; every unvisited node
with finite distance has its current distance in the queue; every visited
node's distance is finite and below every queue key; the out-edges of every
visited node have been relaxed; visited nodes are in range. -/
structure DjInv (g : Graph ℚ) (source : Nat) (pq : List (Wt × Nat))
    (dist : List (Nat × Wt)) (visited : List Nat) : Prop where
  sorted : pq.Sorted pqLe
  keys : ∀ k, (alookup dist k).isSome ↔ (k < g.V ∨ k = source)
  nonneg : ∀ v dv, alookup dist v = some dv → 0 ≤ dv
  srcZero : alookup dist source = some ((0 : ℚ) : Wt)
  pqBound : ∀ e ∈ pq, ∃ dv, alookup dist e.2 = some dv ∧ dv ≤ e.1 ∧ e.1 ≠ ⊤
  pqCover : ∀ v dv, alookup dist v = some dv → dv ≠ ⊤ → v ∉ visited → (dv, v) ∈ pq
  visLB : ∀ v ∈ visited, ∃ dv, alookup dist v = some dv ∧ dv ≠ ⊤ ∧ ∀ e ∈ pq, dv ≤ e.1
  visAdj : ∀ v ∈ visited, ∀ e ∈ g.adjGet v, ∃ dv dy, alookup dist v = some dv ∧
    alookup dist e.1 = some dy ∧ dy ≤ dv + (e.2 : Wt)
  visKeys : ∀ v ∈ visited, v < g.V ∨ v = source
  nodup : visited.Nodup

/-- The parent-map invariant of the single-pair loop: keys are exactly
`range V`; a recorded parent `p` of `x` is a visited node sitting at the
head of a suffix of the visitation history that excludes `x`, with an edge
`p → x` whose relaxation produced `x`'s current (finite) distance; a `None`
parent means the node is the source or still at the infinite sentinel. -/
structure PInv (g : Graph ℚ) (source : Nat) (dist : List (Nat × Wt))
    (parent : List (Nat × Option Nat)) (visited : List Nat) : Prop where
  keys : ∀ k, (alookup parent k).isSome ↔ k < g.V
  chain : ∀ x p, alookup parent x = some (some p) →
    ∃ (w dpq : ℚ), (x, w) ∈ g.adjGet p ∧
      alookup dist p = some ((dpq : ℚ) : Wt) ∧
      alookup dist x = some ((dpq + w : ℚ) : Wt) ∧
      ∃ suf : List Nat, (p :: suf) <:+ visited ∧ x ∉ (p :: suf)
  root : ∀ x, alookup parent x = some none → x = source ∨ alookup dist x = some ⊤

/-- The strengthened relaxation lemma: processing the neighbor list of a
just-visited node `u` (whose distance `duq` is minimal among pending keys)
succeeds and returns a state in which every node either kept its distance
and parent or was strictly improved through `u`; the queue stays sorted,
keyed at or above `duq`, bounded by the new distances, and covering the
unvisited finite nodes; all of `ns` is relaxed. -/
theorem relaxP_full (g : Graph ℚ) (source u : Nat) (duq : ℚ) (vcur : List Nat)
    (hduNN : 0 ≤ duq) :
    ∀ (ns : List (Nat × ℚ)) (dist : List (Nat × Wt)) (parent : List (Nat × Option Nat))
      (pq : List (Wt × Nat)),
      (∀ e ∈ ns, e.1 < g.V ∧ 0 ≤ e.2 ∧ (e.1, e.2) ∈ g.adjGet u) →
      alookup dist u = some ((duq : ℚ) : Wt) →
      (∀ k, (alookup dist k).isSome ↔ (k < g.V ∨ k = source)) →
      (∀ v dv, alookup dist v = some dv → 0 ≤ dv) →
      (∀ x ∈ vcur, ∃ dx, alookup dist x = some dx ∧ dx ≤ ((duq : ℚ) : Wt)) →
      pq.Sorted pqLe →
      (∀ e ∈ pq, ((duq : ℚ) : Wt) ≤ e.1) →
      (∀ e ∈ pq, ∃ dv, alookup dist e.2 = some dv ∧ dv ≤ e.1 ∧ e.1 ≠ ⊤) →
      (∀ x dx, alookup dist x = some dx → dx ≠ ⊤ → x ∉ vcur → (dx, x) ∈ pq) →
      (∀ k, (alookup parent k).isSome ↔ k < g.V) →
      ∃ dist' parent' pq',
        relaxNbrsP u dist parent pq ns = .ok (dist', parent', pq') ∧
        (∀ k, (alookup dist' k).isSome = (alookup dist k).isSome) ∧
        (∀ k, (alookup parent' k).isSome = (alookup parent k).isSome) ∧
        (∀ x dx', alookup dist' x = some dx' →
          ∃ dx, alookup dist x = some dx ∧ dx' ≤ dx) ∧
        (∀ x, (alookup dist' x = alookup dist x ∧ alookup parent' x = alookup parent x) ∨
          (x ∉ vcur ∧ ∃ wq : ℚ, (x, wq) ∈ ns ∧
            alookup dist' x = some ((duq + wq : ℚ) : Wt) ∧
            alookup parent' x = some (some u) ∧
            ∃ dxOld, alookup dist x = some dxOld ∧ ((duq + wq : ℚ) : Wt) < dxOld)) ∧
        pq'.Sorted pqLe ∧
        (∀ e ∈ pq', ((duq : ℚ) : Wt) ≤ e.1) ∧
        (∀ e ∈ pq', ∃ dv, alookup dist' e.2 = some dv ∧ dv ≤ e.1 ∧ e.1 ≠ ⊤) ∧
        (∀ x dx', alookup dist' x = some dx' → dx' ≠ ⊤ → x ∉ vcur → (dx', x) ∈ pq') ∧
        (∀ e ∈ ns, ∃ dy, alookup dist' e.1 = some dy ∧ dy ≤ ((duq + e.2 : ℚ) : Wt)) ∧
        (∀ v dv, alookup dist' v = some dv → 0 ≤ dv) ∧
        pq'.length ≤ pq.length + ns.length ∧
        parent.length ≤ parent'.length := by
  intro ns
  induction ns with
  | nil =>
    intro dist parent pq _ _ hkeys hnn _ hsorted hpqLB hpqB hpqC _
    exact ⟨dist, parent, pq, rfl, fun k => rfl, fun k => rfl,
      fun x dx' h => ⟨dx', h, le_refl _⟩, fun x => Or.inl ⟨rfl, rfl⟩,
      hsorted, hpqLB, hpqB, hpqC, fun e he => absurd he (List.not_mem_nil e),
      hnn, by omega, le_refl _⟩
  | cons e0 rest ih =>
    intro dist parent pq hns hdu hkeys hnn hvisLB hsorted hpqLB hpqB hpqC hpk
    obtain ⟨v, w⟩ := e0
    obtain ⟨hvV, hwNN, hvadj⟩ := hns (v, w) (List.mem_cons_self _ _)
    obtain ⟨dv, hdv⟩ := Option.isSome_iff_exists.mp ((hkeys v).mpr (Or.inl hvV))
    have hcoe : ((duq : ℚ) : Wt) + ((w : ℚ) : Wt) = ((duq + w : ℚ) : Wt) :=
      (WithTop.coe_add duq w).symm
    simp only [relaxNbrsP, hdu, hdv, hcoe]
    by_cases hlt : ((duq + w : ℚ) : Wt) < dv
    · rw [if_pos hlt]
      have hvu : v ≠ u := by
        intro h
        rw [h, hdu] at hdv
        cases hdv
        have : ((duq : ℚ) : Wt) ≤ ((duq + w : ℚ) : Wt) := by
          rw [WithTop.coe_le_coe]
          linarith
        exact absurd (lt_of_le_of_lt this hlt) (lt_irrefl _)
      have hvcur : v ∉ vcur := by
        intro hmem
        obtain ⟨dx, hdx, hdxle⟩ := hvisLB v hmem
        rw [hdx] at hdv
        cases hdv
        have : ((duq : ℚ) : Wt) ≤ ((duq + w : ℚ) : Wt) := by
          rw [WithTop.coe_le_coe]
          linarith
        exact absurd (lt_of_le_of_lt this hlt) (not_lt_of_le hdxle)
      have hdvSome : (alookup dist v).isSome := by rw [hdv]; rfl
      have hpkv : (alookup parent v).isSome := (hpk v).mpr hvV
      -- state after this single relaxation
      have hdu₂ : alookup (aset dist v ((duq + w : ℚ) : Wt)) u = some ((duq : ℚ) : Wt) := by
        rw [alookup_aset_ne _ _ _ _ hvu]
        exact hdu
      have hkeys₂ : ∀ k, (alookup (aset dist v ((duq + w : ℚ) : Wt)) k).isSome ↔
          (k < g.V ∨ k = source) := by
        intro k
        rw [alookup_aset_isSome _ _ _ _ hdvSome]
        exact hkeys k
      have hnn₂ : ∀ x dx, alookup (aset dist v ((duq + w : ℚ) : Wt)) x = some dx →
          0 ≤ dx := by
        intro x dx hdx
        by_cases hx : v = x
        · subst hx
          rw [alookup_aset_self] at hdx
          cases hdx
          rw [show (0 : Wt) = ((0 : ℚ) : Wt) from rfl, WithTop.coe_le_coe]
          linarith
        · rw [alookup_aset_ne _ _ _ _ hx] at hdx
          exact hnn x dx hdx
      have hvisLB₂ : ∀ x ∈ vcur, ∃ dx,
          alookup (aset dist v ((duq + w : ℚ) : Wt)) x = some dx ∧
            dx ≤ ((duq : ℚ) : Wt) := by
        intro x hx
        obtain ⟨dx, hdx, hle⟩ := hvisLB x hx
        refine ⟨dx, ?_, hle⟩
        rw [alookup_aset_ne _ _ _ _ (fun h => hvcur (by rw [h]; exact hx))]
        exact hdx
      have hsorted₂ : (pqPush (((duq + w : ℚ) : Wt), v) pq).Sorted pqLe :=
        List.Sorted.orderedInsert _ _ hsorted
      have hpqLB₂ : ∀ e ∈ pqPush (((duq + w : ℚ) : Wt), v) pq,
          ((duq : ℚ) : Wt) ≤ e.1 := by
        intro e he
        rcases (mem_pqPush e _ pq).mp he with he | he
        · subst he
          rw [WithTop.coe_le_coe]
          simpa using hwNN
        · exact hpqLB e he
      have hpqB₂ : ∀ e ∈ pqPush (((duq + w : ℚ) : Wt), v) pq,
          ∃ dx, alookup (aset dist v ((duq + w : ℚ) : Wt)) e.2 = some dx ∧
            dx ≤ e.1 ∧ e.1 ≠ ⊤ := by
        intro e he
        rcases (mem_pqPush e _ pq).mp he with he | he
        · subst he
          exact ⟨_, alookup_aset_self _ _ _, le_refl _, WithTop.coe_ne_top⟩
        · obtain ⟨dx, hdx, hle, hne⟩ := hpqB e he
          by_cases hx : v = e.2
          · refine ⟨((duq + w : ℚ) : Wt), ?_, ?_, hne⟩
            · rw [← hx, alookup_aset_self]
            · rw [← hx] at hdx
              rw [hdx] at hdv
              cases hdv
              exact le_of_lt (lt_of_lt_of_le hlt hle)
          · refine ⟨dx, ?_, hle, hne⟩
            rw [alookup_aset_ne _ _ _ _ hx]
            exact hdx
      have hpqC₂ : ∀ x dx, alookup (aset dist v ((duq + w : ℚ) : Wt)) x = some dx →
          dx ≠ ⊤ → x ∉ vcur → (dx, x) ∈ pqPush (((duq + w : ℚ) : Wt), v) pq := by
        intro x dx hdx hne hx
        by_cases hxv : v = x
        · subst hxv
          rw [alookup_aset_self] at hdx
          cases hdx
          exact (mem_pqPush _ _ pq).mpr (Or.inl rfl)
        · rw [alookup_aset_ne _ _ _ _ hxv] at hdx
          exact (mem_pqPush _ _ pq).mpr (Or.inr (hpqC x dx hdx hne hx))
      have hpk₂ : ∀ k, (alookup (aset parent v (some u)) k).isSome ↔ k < g.V := by
        intro k
        rw [alookup_aset_isSome _ _ _ _ hpkv]
        exact hpk k
      obtain ⟨dist', parent', pq', hok, hkeysEq, hpkEq, hmono, hdich, hsorted', hpqLB',
        hpqB', hpqC', hadjRel, hnn', hlen', hplen'⟩ :=
        ih (aset dist v ((duq + w : ℚ) : Wt)) (aset parent v (some u))
          (pqPush (((duq + w : ℚ) : Wt), v) pq)
          (fun e he => hns e (List.mem_cons_of_mem _ he)) hdu₂ hkeys₂ hnn₂ hvisLB₂
          hsorted₂ hpqLB₂ hpqB₂ hpqC₂ hpk₂
      refine ⟨dist', parent', pq', hok, ?_, ?_, ?_, ?_, hsorted', hpqLB', hpqB', ?_, ?_,
        hnn', ?_, le_trans (aset_length_le parent v (some u)) hplen'⟩
      · intro k
        rw [hkeysEq k, alookup_aset_isSome _ _ _ _ hdvSome]
      · intro k
        rw [hpkEq k, alookup_aset_isSome _ _ _ _ hpkv]
      · intro x dx' hdx'
        obtain ⟨dx₂, hdx₂, hle₂⟩ := hmono x dx' hdx'
        by_cases hx : v = x
        · subst hx
          rw [alookup_aset_self] at hdx₂
          cases hdx₂
          exact ⟨dv, hdv, le_of_lt (lt_of_le_of_lt hle₂ hlt)⟩
        · rw [alookup_aset_ne _ _ _ _ hx] at hdx₂
          exact ⟨dx₂, hdx₂, hle₂⟩
      · intro x
        rcases hdich x with ⟨hdx, hpx⟩ | ⟨hxv, wq, hwq, hdx, hpx, dxOld₂, hdxOld₂, hltOld₂⟩
        · by_cases hx : v = x
          · subst hx
            refine Or.inr ⟨hvcur, w, List.mem_cons_self _ _, ?_, ?_, dv, hdv, hlt⟩
            · rw [hdx, alookup_aset_self]
            · rw [hpx, alookup_aset_self]
          · refine Or.inl ⟨?_, ?_⟩
            · rw [hdx, alookup_aset_ne _ _ _ _ hx]
            · rw [hpx, alookup_aset_ne _ _ _ _ hx]
        · refine Or.inr ⟨hxv, wq, List.mem_cons_of_mem _ hwq, hdx, hpx, ?_⟩
          by_cases hx : v = x
          · subst hx
            rw [alookup_aset_self] at hdxOld₂
            cases hdxOld₂
            exact ⟨dv, hdv, lt_trans hltOld₂ hlt⟩
          · rw [alookup_aset_ne _ _ _ _ hx] at hdxOld₂
            exact ⟨dxOld₂, hdxOld₂, hltOld₂⟩
      · exact hpqC'
      · intro e he
        rcases List.mem_cons.mp he with he | he
        · subst he
          have hvSome : (alookup dist' v).isSome := by
            rw [hkeysEq v, alookup_aset_self]
            rfl
          obtain ⟨dy, hdy⟩ := Option.isSome_iff_exists.mp hvSome
          obtain ⟨dx₂, hdx₂, hle₂⟩ := hmono v dy hdy
          rw [alookup_aset_self] at hdx₂
          cases hdx₂
          exact ⟨dy, hdy, hle₂⟩
        · exact hadjRel e he
      · rw [pqPush_length] at hlen'
        simp only [List.length_cons]
        omega
    · rw [if_neg hlt]
      obtain ⟨dist', parent', pq', hok, hkeysEq, hpkEq, hmono, hdich, hsorted', hpqLB',
        hpqB', hpqC', hadjRel, hnn', hlen', hplen'⟩ :=
        ih dist parent pq (fun e he => hns e (List.mem_cons_of_mem _ he)) hdu hkeys hnn
          hvisLB hsorted hpqLB hpqB hpqC hpk
      refine ⟨dist', parent', pq', hok, hkeysEq, hpkEq, hmono, ?_, hsorted', hpqLB',
        hpqB', hpqC', ?_, hnn', ?_, hplen'⟩
      · intro x
        rcases hdich x with h | ⟨hxv, wq, hwq, hrest⟩
        · exact Or.inl h
        · exact Or.inr ⟨hxv, wq, List.mem_cons_of_mem _ hwq, hrest⟩
      · intro e he
        rcases List.mem_cons.mp he with he | he
        · subst he
          obtain ⟨dy, hdy⟩ := Option.isSome_iff_exists.mp
            (by rw [hkeysEq v, hdv]; rfl : (alookup dist' v).isSome)
          obtain ⟨dx, hdx, hle⟩ := hmono v dy hdy
          rw [hdx] at hdv
          cases hdv
          exact ⟨dy, hdy, le_trans hle (not_lt.mp hlt)⟩
        · exact hadjRel e he
      · simp only [List.length_cons]
        omega

/-- Skipping a stale queue entry (already-visited node) keeps the invariant. -/
theorem djInv_stale (g : Graph ℚ) (source u : Nat) (d : Wt) (rest : List (Wt × Nat))
    (dist : List (Nat × Wt)) (visited : List Nat)
    (hinv : DjInv g source ((d, u) :: rest) dist visited) (hvis : u ∈ visited) :
    DjInv g source rest dist visited where
  sorted := hinv.sorted.of_cons
  keys := hinv.keys
  nonneg := hinv.nonneg
  srcZero := hinv.srcZero
  pqBound := fun e he => hinv.pqBound e (List.mem_cons_of_mem _ he)
  pqCover := by
    intro v dv hdv hne hv
    rcases List.mem_cons.mp (hinv.pqCover v dv hdv hne hv) with h | h
    · cases h
      exact absurd hvis hv
    · exact h
  visLB := by
    intro v hv
    obtain ⟨dv, hdv, hne, hle⟩ := hinv.visLB v hv
    exact ⟨dv, hdv, hne, fun e he => hle e (List.mem_cons_of_mem _ he)⟩
  visAdj := hinv.visAdj
  visKeys := hinv.visKeys
  nodup := hinv.nodup

/-- With an empty queue, every reachable node has a finite distance. -/
theorem djInv_complete (g : Graph ℚ) (source : Nat)
    (dist : List (Nat × Wt)) (visited : List Nat)
    (hinv : DjInv g source [] dist visited) :
    ∀ v, Reach g source v → ∃ q : ℚ, alookup dist v = some ((q : ℚ) : Wt) := by
  intro v hv
  induction hv with
  | refl => exact ⟨0, hinv.srcZero⟩
  | @tail b c hab hbc ih =>
    obtain ⟨q, hq⟩ := ih
    have hbvis : b ∈ visited := by
      by_contra hb
      exact absurd (hinv.pqCover b _ hq WithTop.coe_ne_top hb) (List.not_mem_nil _)
    obtain ⟨w, hw⟩ := hbc
    obtain ⟨dv, dy, hdv, hdy, hle⟩ := hinv.visAdj b hbvis (c, w) hw
    rw [hq] at hdv
    cases hdv
    have hne : dy ≠ ⊤ := by
      refine ne_top_of_le_ne_top ?_ hle
      rw [show ((q : ℚ) : Wt) + ((w : ℚ) : Wt) = ((q + w : ℚ) : Wt) from
        (WithTop.coe_add q w).symm]
      exact WithTop.coe_ne_top
    obtain ⟨qc, hqc⟩ := WithTop.ne_top_iff_exists.mp hne
    exact ⟨qc, by rw [hdy, ← hqc]⟩

/-- Processing a fresh minimum `(d, u)`: its distance equals the popped key,
both relaxation routines succeed with the same distance map and queue, the
invariants transfer to the post-state with `u` visited, visited distances
are untouched, and the queue grows by at most `u`'s degree. -/
theorem step_process (g : Graph ℚ) (source u : Nat) (d : Wt) (rest : List (Wt × Nat))
    (dist : List (Nat × Wt)) (parent : List (Nat × Option Nat)) (visited : List Nat)
    (hwf : WFadj g) (hnnadj : NNadj g)
    (hinv : DjInv g source ((d, u) :: rest) dist visited)
    (hP : PInv g source dist parent visited)
    (hvis : u ∉ visited) :
    ∃ (duq : ℚ) (dist' : List (Nat × Wt)) (parent' : List (Nat × Option Nat))
      (pq' : List (Wt × Nat)),
      d = ((duq : ℚ) : Wt) ∧
      alookup dist u = some ((duq : ℚ) : Wt) ∧
      relaxNbrsP u dist parent rest (g.adjGet u) = .ok (dist', parent', pq') ∧
      relaxNbrs u dist rest (g.adjGet u) = .ok (dist', pq') ∧
      DjInv g source pq' dist' (u :: visited) ∧
      PInv g source dist' parent' (u :: visited) ∧
      (∀ x ∈ u :: visited, alookup dist' x = alookup dist x) ∧
      pq'.length ≤ rest.length + (g.adjGet u).length ∧
      parent.length ≤ parent'.length := by
  obtain ⟨du, hdu, hdule, hdne⟩ := hinv.pqBound (d, u) (List.mem_cons_self _ _)
  have hdune : du ≠ ⊤ := ne_top_of_le_ne_top hdne hdule
  have hdeq : du = d := by
    rcases List.mem_cons.mp (hinv.pqCover u du hdu hdune hvis) with h | h
    · cases h
      rfl
    · have := List.rel_of_sorted_cons hinv.sorted _ h
      rcases this with h' | ⟨h', _⟩
      · exact le_antisymm hdule (le_of_lt h')
      · exact le_antisymm hdule (le_of_eq h')
  subst hdeq
  obtain ⟨duq, hduq⟩ := WithTop.ne_top_iff_exists.mp hdune
  have hdu' : alookup dist u = some ((duq : ℚ) : Wt) := by rw [hdu, hduq]
  have hduNN : 0 ≤ duq := by
    have := hinv.nonneg u du hdu
    rw [← hduq] at this
    rw [show (0 : Wt) = ((0 : ℚ) : Wt) from rfl] at this
    exact WithTop.coe_le_coe.mp this
  have hvisLB1 : ∀ x ∈ u :: visited, ∃ dx, alookup dist x = some dx ∧
      dx ≤ ((duq : ℚ) : Wt) := by
    intro x hx
    rcases List.mem_cons.mp hx with hx | hx
    · subst hx
      exact ⟨du, hdu, le_of_eq hduq.symm⟩
    · obtain ⟨dx, hdx, _, hle⟩ := hinv.visLB x hx
      exact ⟨dx, hdx, (by rw [hduq]; exact hle (du, u) (List.mem_cons_self _ _))⟩
  have hsorted1 : rest.Sorted pqLe := hinv.sorted.of_cons
  have hpqLB1 : ∀ e ∈ rest, ((duq : ℚ) : Wt) ≤ e.1 := by
    intro e he
    have := List.rel_of_sorted_cons hinv.sorted _ he
    rw [hduq]
    rcases this with h' | ⟨h', _⟩
    · exact le_of_lt h'
    · exact le_of_eq h'
  have hpqB1 : ∀ e ∈ rest, ∃ dv, alookup dist e.2 = some dv ∧ dv ≤ e.1 ∧ e.1 ≠ ⊤ :=
    fun e he => hinv.pqBound e (List.mem_cons_of_mem _ he)
  have hpqC1 : ∀ x dx, alookup dist x = some dx → dx ≠ ⊤ → x ∉ u :: visited →
      (dx, x) ∈ rest := by
    intro x dx hdx hne hx
    have hx' : x ∉ visited := fun h => hx (List.mem_cons_of_mem _ h)
    have hxu : x ≠ u := fun h => hx (h ▸ List.mem_cons_self _ _)
    rcases List.mem_cons.mp (hinv.pqCover x dx hdx hne hx') with h | h
    · cases h
      exact absurd rfl hxu
    · exact h
  obtain ⟨dist', parent', pq', hok, hkeysEq, hpkEq, hmono, hdich, hsorted', hpqLB',
    hpqB', hpqC', hadjRel, hnn', hlen', hplen'⟩ :=
    relaxP_full g source u duq (u :: visited) hduNN (g.adjGet u) dist parent rest
      (fun e he => ⟨adjGet_target_lt g hwf u e he, adjGet_nonneg g hnnadj u e he, he⟩)
      hdu' hinv.keys hinv.nonneg hvisLB1 hsorted1 hpqLB1 hpqB1 hpqC1 hP.keys
  have hstable : ∀ x ∈ u :: visited, alookup dist' x = alookup dist x := by
    intro x hx
    rcases hdich x with ⟨h, _⟩ | ⟨hxv, _⟩
    · exact h
    · exact absurd hx hxv
  have hdu'' : alookup dist' u = some ((duq : ℚ) : Wt) := by
    rw [hstable u (List.mem_cons_self _ _)]
    exact hdu'
  refine ⟨duq, dist', parent', pq', hduq.symm, hdu', hok,
    relax_of_relaxP u (g.adjGet u) dist parent rest dist' parent' pq' hok, ?_, ?_,
    hstable, hlen', hplen'⟩
  · -- DjInv at the post-state
    refine ⟨hsorted', ?_, hnn', ?_, hpqB', hpqC', ?_, ?_, ?_,
      List.nodup_cons.mpr ⟨hvis, hinv.nodup⟩⟩
    · intro k
      rw [hkeysEq k]
      exact hinv.keys k
    · rcases hdich source with ⟨h, _⟩ | ⟨_, wq, hwqmem, _, _, dxOld, hdxOld, hltOld⟩
      · rw [h]
        exact hinv.srcZero
      · rw [hinv.srcZero] at hdxOld
        cases hdxOld
        rw [WithTop.coe_lt_coe] at hltOld
        have hwq : 0 ≤ wq := adjGet_nonneg g hnnadj u (source, wq) hwqmem
        exact absurd hltOld (by simp; linarith)
    · intro v hv
      obtain ⟨dx, hdx, hle⟩ := hvisLB1 v hv
      refine ⟨dx, by rw [hstable v hv]; exact hdx, ?_, ?_⟩
      · rcases List.mem_cons.mp hv with h | h
        · subst h
          rw [hdx] at hdu'
          cases hdu'
          exact WithTop.coe_ne_top
        · obtain ⟨dx2, hdx2, hne2, _⟩ := hinv.visLB v h
          rw [hdx2] at hdx
          cases hdx
          exact hne2
      · intro e he
        exact le_trans hle (hpqLB' e he)
    · intro v hv e he
      rcases List.mem_cons.mp hv with h | h
      · subst h
        obtain ⟨dy, hdy, hley⟩ := hadjRel e he
        refine ⟨((duq : ℚ) : Wt), dy, hdu'', hdy, ?_⟩
        rw [show ((duq : ℚ) : Wt) + ((e.2 : ℚ) : Wt) = ((duq + e.2 : ℚ) : Wt) from
          (WithTop.coe_add duq e.2).symm]
        exact hley
      · obtain ⟨dv, dy, hdv, hdy, hle⟩ := hinv.visAdj v h e he
        have hdv' : alookup dist' v = some dv := by
          rw [hstable v hv]
          exact hdv
        have hySome : (alookup dist' e.1).isSome := by
          rw [hkeysEq e.1, hdy]
          rfl
        obtain ⟨dy', hdy'⟩ := Option.isSome_iff_exists.mp hySome
        obtain ⟨dyOld, hdyOld, hley'⟩ := hmono e.1 dy' hdy'
        rw [hdy] at hdyOld
        cases hdyOld
        exact ⟨dv, dy', hdv', hdy', le_trans hley' hle⟩
    · intro v hv
      rcases List.mem_cons.mp hv with h | h
      · subst h
        exact (hinv.keys v).mp (by rw [hdu]; exact Option.isSome_some)
      · exact hinv.visKeys v h
  · -- PInv at the post-state
    refine ⟨?_, ?_, ?_⟩
    · intro k
      rw [hpkEq k]
      exact hP.keys k
    · intro x p hxp
      rcases hdich x with ⟨hdx, hpx⟩ | ⟨hxv, wq, hwq, hdx, hpx, _⟩
      · rw [hpx] at hxp
        obtain ⟨w, dpq, hedge, hdp, hdxval, suf, hsuf, hxns⟩ := hP.chain x p hxp
        have hpvis : p ∈ visited := hsuf.subset (List.mem_cons_self _ _)
        refine ⟨w, dpq, hedge, ?_, by rw [hdx]; exact hdxval, suf, ?_, hxns⟩
        · rw [hstable p (List.mem_cons_of_mem _ hpvis)]
          exact hdp
        · exact hsuf.trans (List.suffix_cons u visited)
      · rw [hpx] at hxp
        cases hxp
        exact ⟨wq, duq, hwq, hdu'', hdx, visited, List.suffix_refl _, hxv⟩
    · intro x hx
      rcases hdich x with ⟨hdx, hpx⟩ | ⟨_, _, _, _, hpx, _⟩
      · rw [hpx] at hx
        rcases hP.root x hx with h | h
        · exact Or.inl h
        · exact Or.inr (by rw [hdx]; exact h)
      · rw [hpx] at hx
        cases hx

/-- After a node is visited, the rest of the Dijkstra loop never changes the
distances of visited nodes (the parent map is carried as a ghost for the
invariant). -/
theorem djLoop_stable (g : Graph ℚ) (source : Nat) (hwf : WFadj g) (hnnadj : NNadj g) :
    ∀ (fuel : Nat) (pq : List (Wt × Nat)) (dist : List (Nat × Wt)) (visited : List Nat)
      (parent : List (Nat × Option Nat)),
      loopMeasure g pq visited < fuel →
      DjInv g source pq dist visited →
      PInv g source dist parent visited →
      ∃ dmB, dijkstraLoop g fuel pq dist visited = .ok dmB ∧
        (∀ x ∈ visited, alookup dmB x = alookup dist x) := by
  intro fuel
  induction fuel with
  | zero =>
    intro pq dist visited parent hfuel _ _
    omega
  | succ fuel ih =>
    intro pq dist visited parent hfuel hinv hP
    match pq with
    | [] => exact ⟨dist, rfl, fun x _ => rfl⟩
    | (d, u) :: rest =>
      rw [dijkstraLoop]
      by_cases hvis : u ∈ visited
      · rw [if_pos hvis]
        refine ih rest dist visited parent ?_ (djInv_stale g source u d rest dist visited
          hinv hvis) hP
        unfold loopMeasure at hfuel ⊢
        simp only [List.length_cons] at hfuel
        omega
      · rw [if_neg hvis]
        obtain ⟨duq, dist', parent', pq', hdeq, hdu, hokP, hok, hinv', hP', hstable, hlen⟩ :=
          step_process g source u d rest dist parent visited hwf hnnadj hinv hP hvis
        rw [hok]
        have hmeas : loopMeasure g pq' (u :: visited) < fuel := by
          have hrem := remAdj_cons g u visited hvis
          unfold loopMeasure at hfuel ⊢
          simp only [List.length_cons] at hfuel
          omega
        obtain ⟨dmB, hdmB, hstB⟩ := ih pq' dist' (u :: visited) parent' hmeas hinv' hP'
        refine ⟨dmB, hdmB, ?_⟩
        intro x hx
        rw [hstB x (List.mem_cons_of_mem _ hx), hstable x (List.mem_cons_of_mem _ hx)]

/-- The master lockstep lemma: starting from a shared invariant state with an
unvisited target, the early-breaking single-pair loop and the full Dijkstra
loop both succeed and agree on the target's final distance; the single-pair
loop's final state keeps the key-set, non-negativity, source-at-zero and
parent invariants, and the target's distance is finite if the loop broke
early, while on queue exhaustion every reachable node is finite. -/
theorem spLoop_master (g : Graph ℚ) (source target : Nat) (hwf : WFadj g)
    (hnnadj : NNadj g) :
    ∀ (fuel : Nat) (pq : List (Wt × Nat)) (dist : List (Nat × Wt))
      (parent : List (Nat × Option Nat)) (visited : List Nat),
      loopMeasure g pq visited < fuel →
      DjInv g source pq dist visited →
      PInv g source dist parent visited →
      target ∉ visited →
      ∃ dist' parent' dmB,
        spLoop g target fuel pq dist parent visited = .ok (dist', parent') ∧
        dijkstraLoop g fuel pq dist visited = .ok dmB ∧
        alookup dmB target = alookup dist' target ∧
        (∀ k, (alookup dist' k).isSome ↔ (k < g.V ∨ k = source)) ∧
        (∀ v dv, alookup dist' v = some dv → 0 ≤ dv) ∧
        alookup dist' source = some ((0 : ℚ) : Wt) ∧
        parent.length ≤ parent'.length ∧
        (∃ vis2, PInv g source dist' parent' vis2 ∧
          (∀ v ∈ vis2, v < g.V ∨ v = source) ∧ vis2.Nodup) ∧
        ((∃ dtq : ℚ, alookup dist' target = some ((dtq : ℚ) : Wt)) ∨
          (∀ v, Reach g source v → ∃ dvq : ℚ,
            alookup dist' v = some ((dvq : ℚ) : Wt))) := by
  intro fuel
  induction fuel with
  | zero =>
    intro pq dist parent visited hfuel _ _ _
    omega
  | succ fuel ih =>
    intro pq dist parent visited hfuel hinv hP htgt
    match pq with
    | [] =>
      refine ⟨dist, parent, dist, rfl, rfl, rfl, hinv.keys, hinv.nonneg, hinv.srcZero,
        le_refl _, ⟨visited, hP, hinv.visKeys, hinv.nodup⟩, Or.inr ?_⟩
      exact djInv_complete g source dist visited hinv
    | (d, u) :: rest =>
      rw [spLoop, dijkstraLoop]
      by_cases htu : u = target
      · subst htu
        rw [if_pos rfl]
        obtain ⟨duq, dist', parent', pq', hdeq, hdu, hokP, hok, hinv', hP', hstable, hlen,
          hplen⟩ := step_process g source u d rest dist parent visited hwf hnnadj hinv hP htgt
        rw [if_neg htgt, hok]
        have hmeas : loopMeasure g pq' (u :: visited) < fuel := by
          have hrem := remAdj_cons g u visited htgt
          unfold loopMeasure at hfuel ⊢
          simp only [List.length_cons] at hfuel
          omega
        obtain ⟨dmB, hdmB, hstB⟩ :=
          djLoop_stable g source hwf hnnadj fuel pq' dist' (u :: visited) parent'
            hmeas hinv' hP'
        refine ⟨dist, parent, dmB, rfl, hdmB, ?_, hinv.keys, hinv.nonneg, hinv.srcZero,
          le_refl _, ⟨visited, hP, hinv.visKeys, hinv.nodup⟩, Or.inl ⟨duq, hdu⟩⟩
        rw [hstB u (List.mem_cons_self _ _), hstable u (List.mem_cons_self _ _)]
      · rw [if_neg htu]
        by_cases hvis : u ∈ visited
        · rw [if_pos hvis, if_pos hvis]
          refine ih rest dist parent visited ?_
            (djInv_stale g source u d rest dist visited hinv hvis) hP htgt
          unfold loopMeasure at hfuel ⊢
          simp only [List.length_cons] at hfuel
          omega
        · rw [if_neg hvis, if_neg hvis]
          obtain ⟨duq, dist', parent', pq', hdeq, hdu, hokP, hok, hinv', hP', hstable,
            hlen, hplen⟩ := step_process g source u d rest dist parent visited hwf hnnadj
              hinv hP hvis
          rw [hokP, hok]
          have hmeas2 : loopMeasure g pq' (u :: visited) < fuel := by
            have hrem := remAdj_cons g u visited hvis
            unfold loopMeasure at hfuel ⊢
            simp only [List.length_cons] at hfuel
            omega
          have htgt2 : target ∉ u :: visited := by
            intro h
            rcases List.mem_cons.mp h with h | h
            · exact htu h.symm
            · exact htgt h
          obtain ⟨distF, parentF, dmBF, hspF, hdjF, hlkF, hkeysF, hnnF, hsrcF, hplenF,
            hvisF, hfinF⟩ := ih pq' dist' parent' (u :: visited) hmeas2 hinv' hP' htgt2
          exact ⟨distF, parentF, dmBF, hspF, hdjF, hlkF, hkeysF, hnnF, hsrcF,
            le_trans hplen hplenF, hvisF, hfinF⟩

/-! ## Path reconstruction -/

/-- `IsPathWith g nodes ws`: `nodes` is a non-empty node sequence whose
consecutive pairs are adjacency edges of `g` carrying the weights `ws`. -/
def IsPathWith (g : Graph ℚ) : List Nat → List ℚ → Prop
  | [_], [] => True
  | a :: b :: rest, w :: ws => (b, w) ∈ g.adjGet a ∧ IsPathWith g (b :: rest) ws
  | _, _ => False

theorem isPathWith_append (g : Graph ℚ) :
    ∀ (l : List Nat) (ws : List ℚ) (p x : Nat) (w : ℚ),
      IsPathWith g l ws → l.getLast? = some p → (x, w) ∈ g.adjGet p →
      IsPathWith g (l ++ [x]) (ws ++ [w]) := by
  intro l
  induction l with
  | nil => intro ws p x w h _ _; cases ws <;> exact absurd h not_false
  | cons a rest ih =>
    intro ws p x w h hlast hmem
    match rest, ws with
    | [], [] =>
      rw [List.getLast?_cons, Option.some.injEq] at hlast
      simp only [List.getLast?_nil, Option.getD_none] at hlast
      subst hlast
      exact ⟨hmem, trivial⟩
    | [], w0 :: ws' => exact absurd h not_false
    | b :: rest', [] => exact absurd h not_false
    | b :: rest', w0 :: ws' =>
      obtain ⟨hedge, htail⟩ := h
      rw [List.getLast?_cons_cons] at hlast
      exact ⟨hedge, ih ws' p x w htail hlast hmem⟩

theorem suffix_length_lt {l₁ l₂ l : List Nat} (h₁ : l₁ <:+ l) (h₂ : l₂ <:+ l)
    (x : Nat) (hx : x ∈ l₁) (hx₂ : x ∉ l₂) : l₂.length < l₁.length := by
  rcases List.suffix_or_suffix_of_suffix h₁ h₂ with h | h
  · exact absurd (h.sublist.subset hx) hx₂
  · have hle := h.sublist.length_le
    rcases Nat.lt_or_ge l₂.length l₁.length with hlt | hge
    · exact hlt
    · have heq : l₂ = l₁ := h.sublist.eq_of_length (by omega)
      subst heq
      exact absurd hx hx₂

/-- Walking parent pointers from a finite-distance node terminates at the
source, yielding a node sequence whose reverse is an edge path of `g` with
total weight equal to the node's recorded distance. -/
theorem reconstruct_spec (g : Graph ℚ) (source : Nat) (dist : List (Nat × Wt))
    (parent : List (Nat × Option Nat)) (vis2 : List Nat)
    (hP : PInv g source dist parent vis2)
    (hsrc0 : alookup dist source = some ((0 : ℚ) : Wt))
    (hsV : source < g.V)
    (hvisK : ∀ v ∈ vis2, v < g.V ∨ v = source) :
    ∀ (n : Nat) (x : Nat) (dxq : ℚ) (fuel : Nat),
      alookup dist x = some ((dxq : ℚ) : Wt) →
      (alookup parent x).isSome →
      (∀ p, alookup parent x = some (some p) →
        ∃ suf, (p :: suf) <:+ vis2 ∧ x ∉ (p :: suf) ∧ (p :: suf).length ≤ n) →
      n < fuel →
      ∃ nodes ws, reconstruct parent fuel x = .ok nodes ∧
        nodes ≠ [] ∧
        nodes.head? = some x ∧
        nodes.getLast? = some source ∧
        IsPathWith g nodes.reverse ws ∧
        ws.sum = dxq := by
  intro n
  induction n with
  | zero =>
    intro x dxq fuel hdx hpx hbound hfuel
    match fuel with
    | 0 => omega
    | f + 1 =>
      obtain ⟨px, hpx'⟩ := Option.isSome_iff_exists.mp hpx
      match px with
      | none =>
        have hxs : x = source := by
          rcases hP.root x hpx' with h | h
          · exact h
          · rw [h] at hdx
            cases hdx
        subst hxs
        rw [reconstruct, hpx']
        rw [hsrc0] at hdx
        have : dxq = 0 := by
          cases hdx
          rfl
        subst this
        exact ⟨[x], [], rfl, by simp, rfl, rfl, trivial, rfl⟩
      | some p =>
        obtain ⟨suf, _, _, hlen⟩ := hbound p hpx'
        simp at hlen
  | succ n ihn =>
    intro x dxq fuel hdx hpx hbound hfuel
    match fuel with
    | 0 => omega
    | f + 1 =>
      obtain ⟨px, hpx'⟩ := Option.isSome_iff_exists.mp hpx
      match px with
      | none =>
        have hxs : x = source := by
          rcases hP.root x hpx' with h | h
          · exact h
          · rw [h] at hdx
            cases hdx
        subst hxs
        rw [reconstruct, hpx']
        rw [hsrc0] at hdx
        have : dxq = 0 := by
          cases hdx
          rfl
        subst this
        exact ⟨[x], [], rfl, by simp, rfl, rfl, trivial, rfl⟩
      | some p =>
        obtain ⟨w, dpq, hedge, hdp, hdxval, suf, hsuf, hxns⟩ := hP.chain x p hpx'
        have hdxq : dxq = dpq + w := by
          rw [hdxval] at hdx
          cases hdx
          rfl
        have hpvis : p ∈ vis2 := hsuf.sublist.subset (List.mem_cons_self _ _)
        have hpV : p < g.V := by
          rcases hvisK p hpvis with h | h
          · exact h
          · exact h ▸ hsV
        have hppx : (alookup parent p).isSome := (hP.keys p).mpr hpV
        obtain ⟨suf1, hsuf1, hx1, hlen1⟩ := hbound p hpx'
        have hboundp : ∀ p₂, alookup parent p = some (some p₂) →
            ∃ suf₂, (p₂ :: suf₂) <:+ vis2 ∧ p ∉ (p₂ :: suf₂) ∧
              (p₂ :: suf₂).length ≤ n := by
          intro p₂ hp₂
          obtain ⟨_, _, _, _, _, suf₂, hsuf₂, hpns₂⟩ := hP.chain p p₂ hp₂
          refine ⟨suf₂, hsuf₂, hpns₂, ?_⟩
          have hlt := suffix_length_lt hsuf1 hsuf₂ p (List.mem_cons_self _ _) hpns₂
          omega
        obtain ⟨nodes, ws, hrec, hne, hhead, hlast, hpath, hsum⟩ :=
          ihn p dpq f hdp hppx hboundp (by omega)
        simp only [reconstruct, hpx', hrec]
        refine ⟨x :: nodes, ws ++ [w], rfl, by simp, rfl, ?_, ?_, ?_⟩
        · match nodes, hne with
          | b :: rest, _ =>
            rw [List.getLast?_cons_cons]
            exact hlast
        · rw [List.reverse_cons]
          refine isPathWith_append g nodes.reverse ws p x w hpath ?_ hedge
          rw [List.getLast?_reverse]
          exact hhead
        · rw [List.sum_append, hsum, hdxq]
          simp

/-! ## Initial invariants and the solved single-pair run -/

theorem init_djinv (g : Graph ℚ) (source : Nat) :
    DjInv g source [(((0 : ℚ) : Wt), source)] (distInit g.V source) [] where
  sorted := List.sorted_singleton _
  keys := distInit_keys g.V source
  nonneg := by
    intro v dv hdv
    rw [distInit_lookup] at hdv
    split at hdv
    · cases hdv
      exact le_refl _
    · split at hdv
      · cases hdv
        exact le_top
      · cases hdv
  srcZero := (distInit_lookup g.V source source).trans (if_pos rfl)
  pqBound := by
    intro e he
    rw [List.mem_singleton] at he
    subst he
    exact ⟨((0 : ℚ) : Wt), (distInit_lookup g.V source source).trans (if_pos rfl),
      le_refl _, WithTop.coe_ne_top⟩
  pqCover := by
    intro v dv hdv hne _
    rw [distInit_lookup] at hdv
    by_cases h : v = source
    · subst h
      rw [if_pos rfl] at hdv
      cases hdv
      exact List.mem_singleton.mpr rfl
    · rw [if_neg h] at hdv
      split at hdv
      · cases hdv
        exact absurd rfl hne
      · cases hdv
  visLB := by
    intro v hv
    exact absurd hv (List.not_mem_nil v)
  visAdj := by
    intro v hv
    exact absurd hv (List.not_mem_nil v)
  visKeys := by
    intro v hv
    exact absurd hv (List.not_mem_nil v)
  nodup := List.nodup_nil

theorem init_pinv (g : Graph ℚ) (source : Nat) :
    PInv g source (distInit g.V source) (parentInit g.V) [] where
  keys := by
    intro k
    rw [parentInit_lookup]
    by_cases h : k < g.V
    · rw [if_pos h]
      simp [h]
    · rw [if_neg h]
      simp [h]
  chain := by
    intro x p hxp
    rw [parentInit_lookup] at hxp
    split at hxp
    · cases hxp
    · cases hxp
  root := by
    intro x hx
    rw [parentInit_lookup] at hx
    split at hx
    · rename_i hxV
      cases hx
      by_cases h : x = source
      · exact Or.inl h
      · refine Or.inr ?_
        rw [distInit_lookup, if_neg h, if_pos hxV]
    · cases hx

theorem reach_lt_V (g : Graph ℚ) (hwf : WFadj g) (source v : Nat) (hsV : source < g.V)
    (h : Reach g source v) : v < g.V := by
  induction h with
  | refl => exact hsV
  | @tail b c hab hbc ih =>
    obtain ⟨w, hw⟩ := hbc
    exact adjGet_target_lt g hwf b (c, w) hw

theorem parentInit_length (V : Nat) : (parentInit V).length = V := by
  unfold parentInit
  rw [List.length_map, List.length_range]

theorem nodup_bounded_length (l : List Nat) (V : Nat) (hn : l.Nodup)
    (hb : ∀ x ∈ l, x < V) : l.length ≤ V := by
  have hsub : l.toFinset ⊆ Finset.range V := by
    intro x hx
    rw [List.mem_toFinset] at hx
    rw [Finset.mem_range]
    exact hb x hx
  have := Finset.card_le_card hsub
  rwa [List.toFinset_card_of_nodup hn, Finset.card_range] at this

/-- The solved single-pair run on a reachable target: `dijkstra` and
`get_shortest_path` both succeed, agree on the (finite) distance, and the
returned path runs from source to target along adjacency edges whose weights
sum to that distance. -/
theorem sp_solution (g : Graph ℚ) (source target : Nat) (hwf : WFadj g)
    (hnnadj : NNadj g) (hsV : source < g.V) (hreach : Reach g source target) :
    ∃ (dmB : List (Nat × Wt)) (nodes : List Nat) (ws : List ℚ) (dq : ℚ),
      g.dijkstra source = .ok dmB ∧
      g.get_shortest_path source target = .ok (nodes.reverse, ((dq : ℚ) : Wt)) ∧
      alookup dmB target = some ((dq : ℚ) : Wt) ∧
      nodes ≠ [] ∧ nodes.head? = some target ∧ nodes.getLast? = some source ∧
      IsPathWith g nodes.reverse ws ∧ ws.sum = dq := by
  obtain ⟨dist', parent', dmB, hsp, hdj, hlk, hkeys, hnn, hsrc0, hplen,
    ⟨vis2, hP2, hvisK2, hnodup2⟩, hfin⟩ :=
    spLoop_master g source target hwf hnnadj (loopFuel g) [(((0 : ℚ) : Wt), source)]
      (distInit g.V source) (parentInit g.V) [] (init_measure_lt g)
      (init_djinv g source) (init_pinv g source) (List.not_mem_nil target)
  have htV : target < g.V := reach_lt_V g hwf source target hsV hreach
  have hdtq : ∃ dtq : ℚ, alookup dist' target = some ((dtq : ℚ) : Wt) := by
    rcases hfin with h | h
    · exact h
    · exact h target hreach
  obtain ⟨dtq, hdt⟩ := hdtq
  have hvisLt : ∀ v ∈ vis2, v < g.V := by
    intro v hv
    rcases hvisK2 v hv with h | h
    · exact h
    · exact h ▸ hsV
  have hfuelRec : vis2.length < parent'.length + 2 := by
    have h1 := nodup_bounded_length vis2 g.V hnodup2 hvisLt
    have h2 := hplen
    rw [parentInit_length] at h2
    omega
  have hboundT : ∀ p, alookup parent' target = some (some p) →
      ∃ suf, (p :: suf) <:+ vis2 ∧ target ∉ (p :: suf) ∧
        (p :: suf).length ≤ vis2.length := by
    intro p hp
    obtain ⟨_, _, _, _, _, suf, hsuf, hns⟩ := hP2.chain target p hp
    exact ⟨suf, hsuf, hns, hsuf.length_le⟩
  obtain ⟨nodes, ws, hrec, hne, hhead, hlast, hpath, hsum⟩ :=
    reconstruct_spec g source dist' parent' vis2 hP2 hsrc0 hsV hvisK2 vis2.length
      target dtq (parent'.length + 2) hdt ((hP2.keys target).mpr htV) hboundT hfuelRec
  refine ⟨dmB, nodes, ws, dtq, hdj, ?_, by rw [hlk, hdt], hne, hhead, hlast, hpath, hsum⟩
  unfold Graph.get_shortest_path
  rw [hsp]
  dsimp only
  rw [hdt]
  dsimp only
  rw [if_neg (by exact WithTop.coe_ne_top), hrec]

/-- C1: for a graph with non-negative weights and a target reachable from
the source, `dijkstra(s)` assigns `v` exactly the total distance returned by
`get_shortest_path(s, v)` — the early break does not change the returned
distance. -/
theorem dijkstra_eq_get_shortest_path (g : Graph ℚ) (source v : Nat)
    (hwf : WFadj g) (hnnadj : NNadj g) (hsV : source < g.V)
    (hreach : Reach g source v) :
    ∃ (dm : List (Nat × Wt)) (path : List Nat) (dq : ℚ),
      g.dijkstra source = .ok dm ∧
      g.get_shortest_path source v = .ok (path, ((dq : ℚ) : Wt)) ∧
      alookup dm v = some ((dq : ℚ) : Wt) := by
  obtain ⟨dmB, nodes, ws, dq, hdj, hsp, hlk, _⟩ :=
    sp_solution g source v hwf hnnadj hsV hreach
  exact ⟨dmB, nodes.reverse, dq, hdj, hsp, hlk⟩

/-- Witness for C1 on the one-edge graph `add_edge(0, 1, 1)`: node `1` is
reachable from `0`; both solvers return distance 1. -/
theorem dijkstra_eq_get_shortest_path_witness :
    (0 < (buildOps [GraphOp.addE 0 1 (1 : ℚ)]).V ∧
      Reach (buildOps [GraphOp.addE 0 1 (1 : ℚ)]) 0 1) ∧
    ∃ (dm : List (Nat × Wt)) (path : List Nat) (dq : ℚ),
      (buildOps [GraphOp.addE 0 1 (1 : ℚ)]).dijkstra 0 = .ok dm ∧
      (buildOps [GraphOp.addE 0 1 (1 : ℚ)]).get_shortest_path 0 1 =
        .ok (path, ((dq : ℚ) : Wt)) ∧
      alookup dm 1 = some ((dq : ℚ) : Wt) := by
  have hr : Reach (buildOps [GraphOp.addE 0 1 (1 : ℚ)]) 0 1 :=
    Relation.ReflTransGen.single ⟨1, by decide⟩
  exact ⟨⟨by decide, hr⟩,
    dijkstra_eq_get_shortest_path (buildOps [GraphOp.addE 0 1 (1 : ℚ)]) 0 1
      (by unfold WFadj; decide) (by unfold NNadj; decide) (by decide) hr⟩

/-- C2: for a graph with non-negative weights and a target reachable from
the source, `get_shortest_path` returns a non-empty path from source to
target whose consecutive pairs are adjacency edges and whose edge weights
sum to the returned total distance. -/
theorem get_shortest_path_valid (g : Graph ℚ) (source target : Nat)
    (hwf : WFadj g) (hnnadj : NNadj g) (hsV : source < g.V)
    (hreach : Reach g source target) :
    ∃ (path : List Nat) (ws : List ℚ) (dq : ℚ),
      g.get_shortest_path source target = .ok (path, ((dq : ℚ) : Wt)) ∧
      path ≠ [] ∧
      path.head? = some source ∧
      path.getLast? = some target ∧
      IsPathWith g path ws ∧
      ws.sum = dq := by
  obtain ⟨dmB, nodes, ws, dq, hdj, hsp, hlk, hne, hhead, hlast, hpath, hsum⟩ :=
    sp_solution g source target hwf hnnadj hsV hreach
  refine ⟨nodes.reverse, ws, dq, hsp, by simpa using hne, ?_, ?_, hpath, hsum⟩
  · rw [List.head?_reverse]
    exact hlast
  · rw [List.getLast?_reverse]
    exact hhead

/-- Witness for C2 on the one-edge graph `add_edge(0, 1, 1)`. -/
theorem get_shortest_path_valid_witness :
    (0 < (buildOps [GraphOp.addE 0 1 (1 : ℚ)]).V ∧
      Reach (buildOps [GraphOp.addE 0 1 (1 : ℚ)]) 0 1) ∧
    ∃ (path : List Nat) (ws : List ℚ) (dq : ℚ),
      (buildOps [GraphOp.addE 0 1 (1 : ℚ)]).get_shortest_path 0 1 =
        .ok (path, ((dq : ℚ) : Wt)) ∧
      path ≠ [] ∧
      path.head? = some 0 ∧
      path.getLast? = some 1 ∧
      IsPathWith (buildOps [GraphOp.addE 0 1 (1 : ℚ)]) path ws ∧
      ws.sum = dq := by
  have hr : Reach (buildOps [GraphOp.addE 0 1 (1 : ℚ)]) 0 1 :=
    Relation.ReflTransGen.single ⟨1, by decide⟩
  exact ⟨⟨by decide, hr⟩,
    get_shortest_path_valid (buildOps [GraphOp.addE 0 1 (1 : ℚ)]) 0 1
      (by unfold WFadj; decide) (by unfold NNadj; decide) (by decide) hr⟩

end TelemetryGraph
